import Mathlib

/-!
Verification model of the `@sanity/eventsource` browser EventSource implementation
(`src/browser.ts`): the connection lifecycle state machine and the incremental
SSE frame parser that live in the `EventSource` constructor closure.

Strings are modelled as `List Char` (JavaScript strings indexed by code unit;
all inputs of interest are within the BMP, where code units and characters
coincide).  Numbers are modelled as `Int` (all arithmetic in the source stays
well inside the exactly-representable range of JS doubles).  Timers are
modelled by recording the delay they were armed with; `Date.now()` is passed
in as an explicit `now` argument.
-/

set_option linter.unusedVariables false

namespace EventSourceModel

/-! ## Constants (source lines 7-21) -/

def WAITING : Int := -1
def CONNECTING : Int := 0
def OPEN : Int := 1
def CLOSED : Int := 2

def AFTER_CR : Int := -1
def FIELD_START : Int := 0
def FIELD : Int := 1
def VALUE_START : Int := 2
def VALUE : Int := 3

def MINIMUM_DURATION : Int := 1000
def MAXIMUM_DURATION : Int := 18000000

/-! ## Data model -/

/-- The mutable variables of the `EventSource` constructor closure that do not
depend on the scan position inside the chunk currently being parsed.  The three
position-dependent variables (`state`, `fieldStart`, `valueStart`) live in `ES`. -/
structure Core where
  url : List Char
  readyState : Int
  initialRetry : Int
  heartbeatTimeout : Int
  lastEventId : List Char
  retry : Int
  /-- `wasActivity`: `false` (here `none`) or a `Date.now()` timestamp. -/
  wasActivity : Option Int
  textLength : Nat
  /-- whether a transport handle (`abortController`) is currently held -/
  abortController : Bool
  /-- `0` (here `none`) or the delay the single timer slot was armed with -/
  timeout : Option Int
  currentState : Int
  dataBuffer : List Char
  lastEventIdBuffer : List Char
  eventTypeBuffer : List Char
  textBuffer : List Char
deriving DecidableEq, Repr

/-- Full connection state: `Core` plus the scan variables of the parser. -/
structure ES where
  core : Core
  state : Int
  fieldStart : Nat
  valueStart : Nat
deriving DecidableEq, Repr

/-- An Event Record as delivered to listeners: the `MessageEvent` built at the
dispatch point (source lines 314-317). -/
structure Rec where
  eventType : List Char
  data : List Char
  lastEventId : List Char
deriving DecidableEq, Repr

/-- Response headers, opaque to the core: carried through to notifications. -/
abbrev Headers := List (List Char × List Char)

/-- Externally visible effects of the lifecycle handlers (listener
notifications, transport control, console output). -/
inductive Eff where
  | openEvent (status : Int) (statusText : List Char) (headers : Headers)
  | connError (status : Int) (statusText : List Char) (headers : Headers)
  | finishError
  | abortTransport
  | openTransport (url : List Char)
  | consoleError
deriving DecidableEq, Repr

/-! ## Duration parsing (source lines 111-120) -/

/-- Whitespace skipped by JS `parseInt` (ASCII part plus NBSP and BOM; the
remaining Unicode space class does not occur in SSE field values). -/
def jsWhitespace (c : Char) : Bool :=
  c = ' ' ∨ c = '\t' ∨ c = '\n' ∨ c = '\r' ∨ c = Char.ofNat 11 ∨ c = Char.ofNat 12 ∨
    c = Char.ofNat 0xa0 ∨ c = Char.ofNat 0xfeff

def digitsVal (ds : List Char) : Nat :=
  ds.foldl (fun a c => a * 10 + (c.toNat - 48)) 0

/-- JS `parseInt(value, 10)`: skip whitespace, optional sign, then the longest
digit prefix; `NaN` (here `none`) when no digits follow. -/
def parseIntBase10 (s : List Char) : Option Int :=
  let t := s.dropWhile jsWhitespace
  let st : Int × List Char :=
    match t with
    | '-' :: r => (-1, r)
    | '+' :: r => (1, r)
    | _ => (1, t)
  let ds := st.2.takeWhile Char.isDigit
  if ds = [] then none else some (st.1 * (digitsVal ds : Int))

def clampDuration (n : Int) : Int :=
  min (max n MINIMUM_DURATION) MAXIMUM_DURATION

def parseDuration (value : Option (List Char)) (dflt : Int) : Int :=
  clampDuration (match value with
    | none => dflt
    | some s => (parseIntBase10 s).getD dflt)

/-! ## close (source lines 474-485): `this.close` -/

def closeCore (co : Core) : Core :=
  { co with currentState := CLOSED, abortController := false, timeout := none,
            readyState := CLOSED }

/-! ## The incremental frame parser: onProgress (source lines 252-352) -/

def isTerm (c : Char) : Bool := c = '\n' ∨ c = '\r'

/-- Index of the last line terminator of a chunk (the `n` computed by the loop
at source lines 254-260; `none` stands for `-1`). -/
def lastTerm : List Char → Option Nat
  | [] => none
  | c :: rest =>
    match lastTerm rest with
    | some i => some (i + 1)
    | none => if isTerm c then some 0 else none

/-- JS `chunk.slice(a, b)` for `0 ≤ a`, `0 ≤ b`. -/
def sliceChunk (chunk : List Char) (a b : Nat) : List Char :=
  (chunk.take b).drop a

/-- Field handling at a line terminator (source lines 288-306). -/
def applyField (co : Core) (field value : List Char) : Core :=
  if field = "data".toList then
    { co with dataBuffer := co.dataBuffer ++ '\n' :: value }
  else if field = "id".toList then
    { co with lastEventIdBuffer := value }
  else if field = "event".toList then
    { co with eventTypeBuffer := value }
  else if field = "retry".toList then
    let ir := parseDuration (some value) co.initialRetry
    { co with initialRetry := ir, retry := ir }
  else if field = "heartbeatTimeout".toList then
    let hb := parseDuration (some value) co.heartbeatTimeout
    { co with heartbeatTimeout := hb,
              timeout := if co.timeout ≠ none then some hb else co.timeout }
  else co

def msgType : List Char := "message".toList

/-- Delivery of the record `r` built at the dispatch point: `closes r` models
whether some listener invoked for `r` calls `close()` during its synchronous
delivery (source lines 318-325); the returned `Bool` is the early `return` of
line 328 (which skips the buffer resets of lines 331-332). -/
def dispatchFinish (closes : Rec → Bool) (co : Core) (out : List Rec) (r : Rec) :
    Core × List Rec × Bool :=
  let co := if closes r then closeCore co else co
  if co.currentState = CLOSED then (co, out ++ [r], true)
  else ({ co with dataBuffer := [], eventTypeBuffer := [] }, out ++ [r], false)

/-- The dispatch point at a blank line (source lines 308-333). -/
def dispatchBlank (closes : Rec → Bool) (co : Core) (out : List Rec) :
    Core × List Rec × Bool :=
  if co.dataBuffer ≠ [] then
    let co :=
      { co with
        lastEventId := co.lastEventIdBuffer,
        eventTypeBuffer :=
          if co.eventTypeBuffer = [] then msgType else co.eventTypeBuffer }
    let r : Rec := ⟨co.eventTypeBuffer, co.dataBuffer.drop 1, co.lastEventIdBuffer⟩
    dispatchFinish closes co out r
  else
    ({ co with dataBuffer := [], eventTypeBuffer := [] }, out, false)

/-- Parser state after a line terminator (source line 334). -/
def termSt (c : Char) : Int := if c = '\r' then AFTER_CR else FIELD_START

/-- The scan loop of `onProgress` (source lines 267-350), processing
`chunk.drop position` with absolute positions into `chunk` for the slices. -/
def scanFrom (closes : Rec → Bool) (chunk : List Char) :
    ES → List Rec → List Char → Nat → ES × List Rec
  | es, out, [], _ => (es, out)
  | es, out, c :: rest, position =>
    if es.state = AFTER_CR ∧ c = '\n' then
      scanFrom closes chunk { es with state := FIELD_START } out rest (position + 1)
    else
      let es := if es.state = AFTER_CR then { es with state := FIELD_START } else es
      if c = '\r' ∨ c = '\n' then
        if es.state = FIELD_START then
          let d := dispatchBlank closes es.core out
          if d.2.2 then ({ es with core := d.1 }, d.2.1)
          else scanFrom closes chunk { es with core := d.1, state := termSt c } d.2.1 rest
            (position + 1)
        else
          let es := if es.state = FIELD then { es with valueStart := position + 1 } else es
          let field := sliceChunk chunk es.fieldStart (es.valueStart - 1)
          let value := sliceChunk chunk
            (es.valueStart +
              (if es.valueStart < position ∧ chunk[es.valueStart]? = some ' ' then 1 else 0))
            position
          scanFrom closes chunk
            { es with core := applyField es.core field value, state := termSt c } out rest
            (position + 1)
      else
        if es.state = FIELD_START then
          let es := { es with fieldStart := position, state := FIELD }
          let es :=
            if c = ':' then { es with valueStart := position + 1, state := VALUE_START }
            else es
          scanFrom closes chunk es out rest (position + 1)
        else if es.state = FIELD then
          let es :=
            if c = ':' then { es with valueStart := position + 1, state := VALUE_START }
            else es
          scanFrom closes chunk es out rest (position + 1)
        else if es.state = VALUE_START then
          scanFrom closes chunk { es with state := VALUE } out rest (position + 1)
        else
          scanFrom closes chunk es out rest (position + 1)

/-- `onProgress` (source lines 252-352): buffer up to the last line terminator,
then scan.  Returns the records dispatched during the call. -/
def onProgress (closes : Rec → Bool) (now : Int) (es : ES) (textChunk : List Char) :
    ES × List Rec :=
  if es.core.currentState = OPEN then
    let n := lastTerm textChunk
    let chunk := (if n ≠ none then es.core.textBuffer else []) ++
      (match n with | none => [] | some i => textChunk.take (i + 1))
    let tb := (if n = none then es.core.textBuffer else []) ++
      (match n with | none => textChunk | some i => textChunk.drop (i + 1))
    let es := { es with core := { es.core with textBuffer := tb } }
    let es :=
      if textChunk ≠ [] then
        { es with core :=
          { es.core with
            wasActivity := some now,
            textLength := es.core.textLength + textChunk.length } }
      else es
    scanFrom closes chunk es [] chunk 0
  else (es, [])

/-! ## onStart (source lines 202-250) -/

/-- Characters JS regex `.` does not match (no `s` flag): line terminators. -/
def jsDotExcluded (c : Char) : Bool :=
  c = '\n' ∨ c = '\r' ∨ c = Char.ofNat 0x2028 ∨ c = Char.ofNat 0x2029

/-- The test `/^text\/event\-stream(;.*)?$/i.test(ct)` (source line 18 / 209). -/
def contentTypeOk (ct : List Char) : Bool :=
  let l := ct.map Char.toLower
  let p := "text/event-stream".toList
  l.take 17 = p ∧
    (let r := l.drop 17
     r = [] ∨ (r.take 1 = [';'] ∧ (r.drop 1).all (fun c => ¬ jsDotExcluded c)))

/-- Whitespace matched by JS regex `\s` (ASCII part plus NBSP and BOM; the
remaining Unicode space class does not occur in HTTP status texts). -/
def jsRegexSpace (c : Char) : Bool := jsWhitespace c

/-- `statusText.replace(/\s+/g, ' ')`: collapse each whitespace run to one
space.  The flag records whether the previous character was whitespace. -/
def collapseWs : Bool → List Char → List Char
  | _, [] => []
  | prevWs, c :: rest =>
    if jsRegexSpace c then
      if prevWs then collapseWs true rest else ' ' :: collapseWs true rest
    else c :: collapseWs false rest

/-- `onStart` (source lines 202-250).  In the failure branch the bare call
`close()` (line 239) resolves to the global `close` (for example
`window.close`), not to the instance method later assigned to `this.close`
(line 474): the constructor declares no local binding named `close`.  The
global `close` does not touch the connection state, so that branch leaves the
state unchanged and only emits notifications. -/
def onStart (status : Int) (statusText : List Char) (contentType : Option (List Char))
    (responseHeaders : Headers) (now : Int) (es : ES) : ES × List Eff :=
  if es.core.currentState = CONNECTING then
    if status = 200 ∧ (match contentType with
        | some ct => contentTypeOk ct
        | none => false) = true then
      ({ es with core :=
        { es.core with
          currentState := OPEN,
          wasActivity := some now,
          retry := es.core.initialRetry,
          readyState := OPEN } },
       [Eff.openEvent status statusText responseHeaders])
    else
      let statusText :=
        if status ≠ 200 ∧ statusText ≠ [] then collapseWs false statusText else statusText
      (es, [Eff.connError status statusText responseHeaders, Eff.consoleError])
  else (es, [])

/-! ## onFinish (source lines 354-374) -/

def onFinish (hasError : Bool) (es : ES) : ES × List Eff :=
  if es.core.currentState = OPEN ∨ es.core.currentState = CONNECTING then
    let co := { es.core with currentState := WAITING }
    let co := { co with timeout := some co.retry }
    let co := { co with retry := clampDuration (min (co.initialRetry * 16) (co.retry * 2)) }
    let co := { co with readyState := CONNECTING }
    ({ es with core := co },
     Eff.finishError :: (if hasError then [Eff.consoleError] else []))
  else (es, [])

/-! ## Request URL construction (source lines 428-447, inside onTimeout) -/

def lastEventIdQueryParameterName : List Char := "lastEventId".toList

/-- Index of the first character satisfying `p` (JS `indexOf`; `none` for -1). -/
def firstIdx (p : Char → Bool) : List Char → Option Nat
  | [] => none
  | c :: rest => if p c then some 0 else (firstIdx p rest).map (· + 1)

/-- Split a query string at each `&` (segments may be empty). -/
def splitAmp : List Char → List (List Char)
  | [] => [[]]
  | c :: rest =>
    if c = '&' then [] :: splitAmp rest
    else
      match splitAmp rest with
      | [] => [[c]]
      | s :: ss => (c :: s) :: ss

/-- The parameter name of a query segment: the part before the first `=`. -/
def segName (seg : List Char) : List Char := seg.takeWhile (fun c => c ≠ '=')

/-- The replace call of source lines 437-439:
`q.replace(/(?:^|&)([^=&]*)(?:=[^&]*)?/g, (p, paramName) => paramName === 'lastEventId' ? '' : p)`.
A match is an `&`-separated segment together with its leading `&` (the first
segment has none; its match is anchored at `^`), and the captured name is the
part before the first `=`, so the replace removes each matched segment named
`lastEventId` together with its leading `&`.  One wrinkle of the regex engine:
when the query starts with `&`, the `^`-anchored match at position 0 is
zero-length (the name cannot cross the `&`), and after a zero-length match the
engine advances past position 0, so that leading `&` can never anchor a match
of its own: the segment right after it is never matched and is kept verbatim,
whatever its name.  Later segments are matched through their own `&` as usual.
A zero-length first match arises exactly when the query is empty or starts
with `&` (a leading `=` yields a nonempty match via the optional value part). -/
def replaceQuery (q : List Char) : List Char :=
  match splitAmp q with
  | [] => []
  | s :: ss =>
    let rest := fun (l : List (List Char)) =>
      (l.map fun t =>
        if segName t = lastEventIdQueryParameterName then [] else '&' :: t).flatten
    if s = [] then
      match ss with
      | [] => []
      | t :: ss2 => '&' :: t ++ rest ss2
    else
      (if segName s = lastEventIdQueryParameterName then [] else s) ++ rest ss

/-- Characters kept verbatim by JS `encodeURIComponent`. -/
def uriUnreserved (c : Char) : Bool :=
  c.isAlpha ∨ c.isDigit ∨
    c = '-' ∨ c = '_' ∨ c = '.' ∨ c = '!' ∨ c = '~' ∨ c = '*' ∨
    c = Char.ofNat 39 ∨ c = '(' ∨ c = ')'

/-- UTF-8 code units of a character, as numbers below 256. -/
def utf8BytesOf (c : Char) : List Nat :=
  let n := c.toNat
  if n < 0x80 then [n]
  else if n < 0x800 then [0xC0 + n / 64, 0x80 + n % 64]
  else if n < 0x10000 then [0xE0 + n / 4096, 0x80 + n / 64 % 64, 0x80 + n % 64]
  else [0xF0 + n / 262144, 0x80 + n / 4096 % 64, 0x80 + n / 64 % 64, 0x80 + n % 64]

def hexUpper : List Char := "0123456789ABCDEF".toList

def pctEncodeByte (b : Nat) : List Char :=
  ['%', hexUpper.getD (b / 16) '0', hexUpper.getD (b % 16) '0']

/-- JS `encodeURIComponent`: unreserved characters kept, everything else
percent-encoded byte by byte in UTF-8. -/
def encodeURIComponent : List Char → List Char
  | [] => []
  | c :: rest =>
    (if uriUnreserved c then [c] else ((utf8BytesOf c).map pctEncodeByte).flatten) ++
      encodeURIComponent rest

/-- The request URL derivation of source lines 428-447. -/
def computeRequestURL (url lastEventId : List Char) : List Char :=
  if url.take 5 ≠ "data:".toList ∧ url.take 5 ≠ "blob:".toList then
    if lastEventId ≠ [] then
      let i := firstIdx (fun c => c = '?') url
      let requestURL :=
        match i with
        | none => url
        | some i => url.take (i + 1) ++ replaceQuery (url.drop (i + 1))
      requestURL ++
        (if i = none then ['?'] else ['&']) ++
        lastEventIdQueryParameterName ++ '=' :: encodeURIComponent lastEventId
    else url
  else url

/-! ## onTimeout (source lines 376-470) -/

/-- JS falsiness of `wasActivity : false | number` (`!wasActivity`). -/
def jsFalsy : Option Int → Bool
  | none => true
  | some t => t = 0

def onTimeout (now : Int) (es : ES) : ES × List Eff :=
  let es := { es with core := { es.core with timeout := none } }
  if es.core.currentState ≠ WAITING then
    if jsFalsy es.core.wasActivity ∧ es.core.abortController then
      let (es, effs) := onFinish true es
      let es :=
        if es.core.abortController then
          { es with core := { es.core with abortController := false } }
        else es
      (es, effs ++ [Eff.abortTransport])
    else
      let nextHeartbeat :=
        max ((match es.core.wasActivity with
              | some t => t
              | none => now) + es.core.heartbeatTimeout - now) 1
      ({ es with core :=
        { es.core with wasActivity := none, timeout := some nextHeartbeat } }, [])
  else
    let co :=
      { es.core with
        wasActivity := none,
        textLength := 0,
        timeout := some es.core.heartbeatTimeout,
        currentState := CONNECTING,
        dataBuffer := [],
        eventTypeBuffer := [],
        lastEventIdBuffer := es.core.lastEventId,
        textBuffer := [] }
    let es := { es with core := co, fieldStart := 0, valueStart := 0, state := FIELD_START }
    let requestURL := computeRequestURL es.core.url es.core.lastEventId
    ({ es with core := { es.core with abortController := true } },
     [Eff.openTransport requestURL])

/-! ## Derived definitions used by the verification -/

/-- Listener family that never calls `close()` during delivery. -/
def noClose : Rec → Bool := fun _ => false

/-- Feeding a list of chunks, each with its own `Date.now()` timestamp. -/
def feedList (closes : Rec → Bool) : ES → List (Int × List Char) → ES × List Rec
  | es, [] => (es, [])
  | es, (t, c) :: rest =>
    let r1 := onProgress closes t es c
    let r2 := feedList closes r1.1 rest
    (r2.1, r1.2 ++ r2.2)

/-- A chunk with no line terminator. -/
def noTerm (l : List Char) : Bool := l.all (fun c => ¬ isTerm c)

/-- Field name and value of one complete line, per the SSE grammar the scan
implements: name before the first `:`, value after it minus one leading space;
a line without `:` is all name with empty value. -/
def lineFV (l : List Char) : List Char × List Char :=
  match firstIdx (fun c => c = ':') l with
  | none => (l, [])
  | some k =>
    let v := l.drop (k + 1)
    (l.take k, if v.head? = some ' ' then v.drop 1 else v)

/-- Line-level semantics: effect of one complete line on the connection. -/
def processLine (closes : Rec → Bool) (co : Core) (out : List Rec) (l : List Char) :
    Core × List Rec × Bool :=
  if l = [] then dispatchBlank closes co out
  else (applyField co (lineFV l).1 (lineFV l).2, out, false)

/-- Folding `processLine` over a list of lines, honoring the early return. -/
def runLines (closes : Rec → Bool) : Core → List Rec → List (List Char) → Core × List Rec
  | co, out, [] => (co, out)
  | co, out, l :: ls =>
    let r := processLine closes co out l
    if r.2.2 then (r.1, r.2.1) else runLines closes r.1 r.2.1 ls

/-- Decompose a character stream into complete lines: returns the lines (without
terminators), the unterminated trailing text, and whether the stream ends right
after a `\r` (so a following `\n` would be swallowed). -/
def linesOf : Bool → List Char → List (List Char) × List Char × Bool
  | aCR, [] => ([], [], aCR)
  | aCR, c :: rest =>
    if aCR ∧ c = '\n' then linesOf false rest
    else if isTerm c then
      let r := linesOf (c = '\r') rest
      ([] :: r.1, r.2.1, r.2.2)
    else
      let r := linesOf false rest
      match r.1 with
      | [] => ([], c :: r.2.1, r.2.2)
      | l :: ls => ((c :: l) :: ls, r.2.1, r.2.2)

/-- Prefix the first line of a decomposition with already-consumed characters. -/
def effLines (u : List Char) : List (List Char) → List (List Char)
  | [] => []
  | l :: ls => (u ++ l) :: ls

/-- Scan state at the start of a line boundary. -/
def entrySt (flag : Bool) : Int := if flag then AFTER_CR else FIELD_START

/-- Scan state after consuming the line prefix `u` (no terminators) that began
at absolute position `p0`. -/
def lineMid (es : ES) (p0 : Nat) (u : List Char) : ES :=
  match firstIdx (fun c => c = ':') u with
  | none =>
    if u = [] then { es with state := FIELD_START }
    else { es with state := FIELD, fieldStart := p0 }
  | some k =>
    { es with
      state := if k + 1 = u.length then VALUE_START else VALUE,
      fieldStart := p0,
      valueStart := p0 + k + 1 }

/-- Scan state on entering the loop: `AFTER_CR` carried across a chunk
boundary, or mid-line after the consumed prefix `u`. -/
def scanEntry (es : ES) (p0 : Nat) (flag : Bool) (u : List Char) : ES :=
  if flag then { es with state := AFTER_CR } else lineMid es p0 u

/-- One non-terminator scan step (source lines 336-347). -/
def nonTermStep (es : ES) (c : Char) (position : Nat) : ES :=
  if es.state = FIELD_START then
    let es := { es with fieldStart := position, state := FIELD }
    if c = ':' then { es with valueStart := position + 1, state := VALUE_START } else es
  else if es.state = FIELD then
    if c = ':' then { es with valueStart := position + 1, state := VALUE_START } else es
  else if es.state = VALUE_START then { es with state := VALUE }
  else es

/-- Field-line handling at a terminator when mid-line (source lines 276-306). -/
def fieldLineES (chunk : List Char) (es : ES) (c : Char) (position : Nat) : ES :=
  let es := if es.state = FIELD then { es with valueStart := position + 1 } else es
  let field := sliceChunk chunk es.fieldStart (es.valueStart - 1)
  let value := sliceChunk chunk
    (es.valueStart +
      (if es.valueStart < position ∧ chunk[es.valueStart]? = some ' ' then 1 else 0))
    position
  { es with core := applyField es.core field value, state := termSt c }

/-- Comparison view that hides the `wasActivity` timestamp (the only connection
variable whose value depends on when the bytes arrived, not on their content). -/
def coreView (co : Core) : Core := { co with wasActivity := none }

/-- Query string of a URL: everything after the first `?`. -/
def urlQuery (u : List Char) : Option (List Char) :=
  (firstIdx (fun c => c = '?') u).map fun i => u.drop (i + 1)

/-- The query parameters of a URL: nonempty `&`-separated segments. -/
def paramsOf (u : List Char) : List (List Char) :=
  match urlQuery u with
  | none => []
  | some q => (splitAmp q).filter (fun s => s ≠ [])

/-- No record of the list makes its listener call `close()`. -/
def closesClean (closes : Rec → Bool) (l : List Rec) : Prop :=
  ∀ r ∈ l, closes r = false

/-- The record a blank line flushes out of a connection with buffered data (the
`MessageEvent` of source lines 314-317). -/
def dbRec (co : Core) : Rec :=
  ⟨if co.eventTypeBuffer = [] then msgType else co.eventTypeBuffer,
    co.dataBuffer.drop 1, co.lastEventIdBuffer⟩

/-- Overwrite the three fields that the line-level semantics never reads nor
writes: the unterminated tail and the activity accounting. -/
def setTransparent (co : Core) (tb : List Char) (wa : Option Int) (tl : Nat) : Core :=
  { co with textBuffer := tb, wasActivity := wa, textLength := tl }

/-! ## Concrete states for the examples -/

/-- A connection in the Open state, as a successful `onStart` leaves it. -/
def sampleCore : Core :=
  { url := "http://example.com/sse".toList
    readyState := OPEN
    initialRetry := 3000
    heartbeatTimeout := 45000
    lastEventId := []
    retry := 3000
    wasActivity := none
    textLength := 0
    abortController := true
    timeout := some 45000
    currentState := OPEN
    dataBuffer := []
    lastEventIdBuffer := []
    eventTypeBuffer := []
    textBuffer := [] }

def sampleES : ES :=
  { core := sampleCore, state := FIELD_START, fieldStart := 0, valueStart := 0 }

/-- A connection in the Connecting state, before the start signal. -/
def connectingES : ES :=
  { sampleES with core :=
    { sampleCore with currentState := CONNECTING, readyState := CONNECTING } }

/-- An open connection with one buffered data line and a pending event id. -/
def dataCore : Core :=
  { sampleCore with dataBuffer := '\n' :: "hi".toList, lastEventIdBuffer := "7".toList }

/-- An open connection whose most recent `id` field was `42`. -/
def idCore : Core := { sampleCore with lastEventIdBuffer := "42".toList }

/-- A listener family whose listeners call `close()` on records carrying the
payload `stop`. -/
def closeOnStop : Rec → Bool := fun r => r.data = "stop".toList

/-- Three chunks splitting a stream mid-line and between `\r` and `\n`. -/
def c1chunks : List (Int × List Char) :=
  [(1, "data: he".toList), (2, "llo".toList ++ ['\r']),
   (3, '\n' :: "data: world".toList ++ ['\n', '\n'])]

/-! ## Basic lemmas -/

theorem set_state_id (es : ES) (x : Int) (h : es.state = x) :
    ({ es with state := x } : ES) = es := by
  cases es; simp_all

theorem lineMid_core (es : ES) (p0 : Nat) (u : List Char) :
    (lineMid es p0 u).core = es.core := by
  unfold lineMid
  rcases h : firstIdx (fun c => c = ':') u with _ | k <;> simp
  split <;> rfl

theorem scanEntry_core (es : ES) (p0 : Nat) (flag : Bool) (u : List Char) :
    (scanEntry es p0 flag u).core = es.core := by
  unfold scanEntry
  split
  · rfl
  · exact lineMid_core es p0 u

theorem firstIdx_cons (p : Char → Bool) (c : Char) (l : List Char) :
    firstIdx p (c :: l) = if p c then some 0 else (firstIdx p l).map (· + 1) := rfl

theorem firstIdx_lt {p : Char → Bool} {u : List Char} {k : Nat}
    (h : firstIdx p u = some k) : k < u.length := by
  induction u generalizing k with
  | nil => simp [firstIdx] at h
  | cons c rest ih =>
    unfold firstIdx at h
    split at h
    · cases h; simp
    · rcases h' : firstIdx p rest with _ | j <;> rw [h'] at h <;> simp at h
      subst h
      simpa using ih h'

theorem firstIdx_append_some {p : Char → Bool} {u : List Char} {k : Nat} (v : List Char)
    (h : firstIdx p u = some k) : firstIdx p (u ++ v) = some k := by
  induction u generalizing k with
  | nil => simp [firstIdx] at h
  | cons c rest ih =>
    unfold firstIdx at h ⊢
    split at h
    · cases h; simp_all
    · rcases h' : firstIdx p rest with _ | j <;> rw [h'] at h <;> simp at h
      subst h
      simp_all [ih h']

theorem firstIdx_append_none {p : Char → Bool} {u : List Char} (v : List Char)
    (h : firstIdx p u = none) :
    firstIdx p (u ++ v) = (firstIdx p v).map (· + u.length) := by
  induction u with
  | nil => simp
  | cons c rest ih =>
    rw [firstIdx_cons] at h
    split at h
    · simp at h
    · rcases h' : firstIdx p rest with _ | j <;> rw [h'] at h
      · rename_i hc
        rw [List.cons_append, firstIdx_cons, if_neg hc, ih h']
        rcases hv : firstIdx p v with _ | m <;> simp [Nat.add_assoc]
      · simp at h

/-! ## Scan step lemmas -/

theorem scan_nil (closes : Rec → Bool) (chunk : List Char) (es : ES) (out : List Rec)
    (p : Nat) : scanFrom closes chunk es out [] p = (es, out) := rfl

theorem scan_acr_lf {es : ES} (closes : Rec → Bool) (chunk : List Char) (out : List Rec)
    (rest : List Char) (p : Nat) (h : es.state = AFTER_CR) :
    scanFrom closes chunk es out ('\n' :: rest) p =
      scanFrom closes chunk { es with state := FIELD_START } out rest (p + 1) := by
  conv_lhs => unfold scanFrom
  rw [if_pos ⟨h, rfl⟩]

theorem scan_acr_normalize {es : ES} {c : Char} (closes : Rec → Bool) (chunk : List Char)
    (out : List Rec) (rest : List Char) (p : Nat) (h : es.state = AFTER_CR)
    (hc : c ≠ '\n') :
    scanFrom closes chunk es out (c :: rest) p =
      scanFrom closes chunk { es with state := FIELD_START } out (c :: rest) p := by
  have hL : ¬ (es.state = AFTER_CR ∧ c = '\n') := by simp [hc]
  have hR : ¬ (({ es with state := FIELD_START } : ES).state = AFTER_CR ∧ c = '\n') := by
    simp [FIELD_START, AFTER_CR]
  have hR2 : ¬ (({ es with state := FIELD_START } : ES).state = AFTER_CR) := by
    simp [FIELD_START, AFTER_CR]
  conv_lhs => unfold scanFrom
  conv_rhs => unfold scanFrom
  rw [if_neg hL, if_neg hR, if_pos h, if_neg hR2]

theorem scan_term_fs {es : ES} {c : Char} (closes : Rec → Bool) (chunk : List Char)
    (out : List Rec) (rest : List Char) (p : Nat) (h : es.state = FIELD_START)
    (hc : isTerm c) :
    scanFrom closes chunk es out (c :: rest) p =
      (let d := dispatchBlank closes es.core out
       if d.2.2 then ({ es with core := d.1 }, d.2.1)
       else scanFrom closes chunk { es with core := d.1, state := termSt c } d.2.1 rest
         (p + 1)) := by
  have hne : es.state ≠ AFTER_CR := by rw [h]; simp [FIELD_START, AFTER_CR]
  have hL : ¬ (es.state = AFTER_CR ∧ c = '\n') := by simp [hne]
  have ht : c = '\r' ∨ c = '\n' := by
    simp only [isTerm, decide_eq_true_eq] at hc
    exact hc.symm
  conv_lhs => unfold scanFrom
  rw [if_neg hL, if_neg hne, if_pos ht, if_pos h]

theorem scan_term_mid {es : ES} {c : Char} (closes : Rec → Bool) (chunk : List Char)
    (out : List Rec) (rest : List Char) (p : Nat) (h1 : es.state ≠ FIELD_START)
    (h2 : es.state ≠ AFTER_CR) (hc : isTerm c) :
    scanFrom closes chunk es out (c :: rest) p =
      scanFrom closes chunk (fieldLineES chunk es c p) out rest (p + 1) := by
  have hL : ¬ (es.state = AFTER_CR ∧ c = '\n') := by simp [h2]
  have ht : c = '\r' ∨ c = '\n' := by
    simp only [isTerm, decide_eq_true_eq] at hc
    exact hc.symm
  conv_lhs => unfold scanFrom
  rw [if_neg hL, if_neg h2, if_pos ht, if_neg h1]
  rfl

theorem scan_nonterm {es : ES} {c : Char} (closes : Rec → Bool) (chunk : List Char)
    (out : List Rec) (rest : List Char) (p : Nat) (h2 : es.state ≠ AFTER_CR)
    (hc : ¬ isTerm c = true) :
    scanFrom closes chunk es out (c :: rest) p =
      scanFrom closes chunk (nonTermStep es c p) out rest (p + 1) := by
  simp only [isTerm, decide_eq_true_eq, not_or] at hc
  have hL : ¬ (es.state = AFTER_CR ∧ c = '\n') := by simp [h2]
  have ht : ¬ (c = '\r' ∨ c = '\n') := by simp [hc.1, hc.2]
  conv_lhs => unfold scanFrom
  rw [if_neg hL, if_neg h2, if_neg ht]
  unfold nonTermStep
  split
  · split <;> rfl
  · split
    · split <;> rfl
    · split <;> rfl

/-! ## Line correspondence lemmas -/

theorem lineMid_nil (es : ES) (p0 : Nat) :
    lineMid es p0 [] = { es with state := FIELD_START } := by
  unfold lineMid firstIdx
  simp

theorem scanEntry_false_nil (es : ES) (p0 : Nat) :
    scanEntry es p0 false [] = { es with state := FIELD_START } := by
  unfold scanEntry
  simp [lineMid_nil]

theorem lineMid_state_ne_acr (es : ES) (p0 : Nat) (u : List Char) :
    (lineMid es p0 u).state ≠ AFTER_CR := by
  unfold lineMid
  rcases firstIdx (fun c => c = ':') u with _ | k <;> simp
  · split <;> simp [FIELD_START, FIELD, AFTER_CR]
  · split <;> simp [VALUE_START, VALUE, AFTER_CR]

theorem termSt_entrySt (c : Char) : termSt c = entrySt (c = '\r') := by
  unfold termSt entrySt
  by_cases h : c = '\r' <;> simp [h]

theorem nonTermStep_lineMid (es : ES) (p0 : Nat) (u : List Char) (c : Char) :
    nonTermStep (lineMid es p0 u) c (p0 + u.length) = lineMid es p0 (u ++ [c]) := by
  cases es with
  | mk co st fs vs =>
    rcases h : firstIdx (fun x => x = ':') u with _ | k
    · by_cases hc : c = ':'
      · subst hc
        have h2 : firstIdx (fun x => x = ':') (u ++ [':']) = some u.length := by
          rw [firstIdx_append_none [':'] h]; simp [firstIdx_cons, firstIdx]
        by_cases hu : u = [] <;>
          simp [lineMid, nonTermStep, firstIdx, h, h2, hu, FIELD_START, FIELD, VALUE_START, VALUE]
      · have h2 : firstIdx (fun x => x = ':') (u ++ [c]) = none := by
          rw [firstIdx_append_none [c] h]; simp [firstIdx_cons, firstIdx, hc]
        by_cases hu : u = [] <;>
          simp [lineMid, nonTermStep, firstIdx, h, h2, hu, hc, FIELD_START, FIELD, VALUE_START, VALUE]
    · have hk : k < u.length := firstIdx_lt h
      have h2 : firstIdx (fun x => x = ':') (u ++ [c]) = some k := firstIdx_append_some [c] h
      have h3 : ¬ (k + 1 = u.length + 1) := by omega
      by_cases hks : k + 1 = u.length <;>
        simp [lineMid, nonTermStep, firstIdx, h, h2, h3, hks, FIELD_START, FIELD, VALUE_START,
          VALUE, AFTER_CR]

theorem sliceChunk_shift (chunk : List Char) (p0 x y : Nat) :
    sliceChunk chunk (p0 + x) (p0 + y) = sliceChunk (chunk.drop p0) x y := by
  unfold sliceChunk
  rw [← List.drop_drop x p0, List.drop_take]
  simp

theorem sliceChunk_prefix (u w : List Char) (x y : Nat) (hy : y ≤ u.length) :
    sliceChunk (u ++ w) x y = sliceChunk u x y := by
  unfold sliceChunk
  rw [List.take_append_of_le_length hy]

theorem sliceChunk_empty (l : List Char) (a b : Nat) (h : b ≤ a) : sliceChunk l a b = [] := by
  unfold sliceChunk
  apply List.drop_eq_nil_of_le
  calc (l.take b).length ≤ b := by simp
    _ ≤ a := h

theorem sliceChunk_zero (u : List Char) (y : Nat) : sliceChunk u 0 y = u.take y := by
  unfold sliceChunk
  simp

theorem fieldLineES_lineMid (chunk : List Char) (es : ES) (p0 : Nat) (u : List Char)
    (c : Char) (w : List Char) (hu : u ≠ [])
    (hchunk : chunk.drop p0 = u ++ c :: w) :
    (fieldLineES chunk (lineMid es p0 u) c (p0 + u.length)).core =
        applyField es.core (lineFV u).1 (lineFV u).2 ∧
      (fieldLineES chunk (lineMid es p0 u) c (p0 + u.length)).state = termSt c := by
  have hs : ∀ x y : Nat, y ≤ u.length →
      sliceChunk chunk (p0 + x) (p0 + y) = sliceChunk u x y := by
    intro x y hy
    rw [sliceChunk_shift, hchunk, sliceChunk_prefix _ _ _ _ hy]
  have hget : ∀ j : Nat, j < u.length → chunk[p0 + j]? = u[j]? := by
    intro j hj
    rw [← List.getElem?_drop, hchunk, List.getElem?_append, if_pos hj]
  rcases h : firstIdx (fun x => x = ':') u with _ | k
  · have hmid : lineMid es p0 u = { es with state := FIELD, fieldStart := p0 } := by
      unfold lineMid; rw [h]; simp [hu]
    have hfv : lineFV u = (u, []) := by unfold lineFV; rw [h]
    rw [hmid]
    unfold fieldLineES
    rw [if_pos (by simp [FIELD])]
    have e1 : p0 + u.length + 1 - 1 = p0 + u.length := by omega
    have hfield : sliceChunk chunk p0 (p0 + u.length + 1 - 1) = u := by
      have h0 := hs 0 u.length (Nat.le_refl _)
      rw [sliceChunk_zero, List.take_length] at h0
      rw [e1]
      simpa using h0
    have hadj : ¬ (p0 + u.length + 1 < p0 + u.length ∧
        chunk[p0 + u.length + 1]? = some ' ') := by
      intro hcon; omega
    have hval : sliceChunk chunk (p0 + u.length + 1 + 0) (p0 + u.length) = [] := by
      apply sliceChunk_empty; omega
    simp only [if_neg hadj, hfield, hval, hfv]
    simp
  · have hk : k < u.length := firstIdx_lt h
    have hmid : lineMid es p0 u =
        { es with
          state := if k + 1 = u.length then VALUE_START else VALUE,
          fieldStart := p0,
          valueStart := p0 + k + 1 } := by
      unfold lineMid; rw [h]
    rw [hmid]
    unfold fieldLineES
    rw [if_neg (by split <;> simp [FIELD, VALUE_START, VALUE])]
    have e1 : p0 + k + 1 - 1 = p0 + k := by omega
    have hfield : sliceChunk chunk p0 (p0 + k + 1 - 1) = u.take k := by
      have h0 := hs 0 k (Nat.le_of_lt hk)
      rw [sliceChunk_zero] at h0
      rw [e1]
      simpa using h0
    have hfv1 : (lineFV u).1 = u.take k := by unfold lineFV; rw [h]
    have hfv2 : (lineFV u).2 =
        (if (u.drop (k + 1)).head? = some ' ' then (u.drop (k + 1)).drop 1
         else u.drop (k + 1)) := by
      unfold lineFV; rw [h]
    by_cases hlt : k + 1 < u.length
    · have hg : chunk[p0 + k + 1]? = u[k + 1]? := by
        rw [show p0 + k + 1 = p0 + (k + 1) from by omega]
        exact hget (k + 1) hlt
      have hh : (u.drop (k + 1)).head? = u[k + 1]? := List.head?_drop u (k + 1)
      by_cases hsp : u[k + 1]? = some ' '
      · have hadj : (p0 + k + 1 < p0 + u.length ∧ chunk[p0 + k + 1]? = some ' ') := by
          refine ⟨by omega, ?_⟩
          rw [hg]; exact hsp
        have hval : sliceChunk chunk (p0 + k + 1 + 1) (p0 + u.length) = u.drop (k + 2) := by
          rw [show p0 + k + 1 + 1 = p0 + (k + 2) from by omega,
            hs (k + 2) u.length (Nat.le_refl _)]
          unfold sliceChunk
          rw [List.take_length]
        simp only [if_pos hadj, hfield, hval, hfv1, hfv2, hh, if_pos hsp]
        rw [List.drop_drop]
        norm_num
      · have hadj : ¬ (p0 + k + 1 < p0 + u.length ∧ chunk[p0 + k + 1]? = some ' ') := by
          intro hcon
          rw [hg] at hcon
          exact hsp hcon.2
        have hval : sliceChunk chunk (p0 + k + 1 + 0) (p0 + u.length) = u.drop (k + 1) := by
          rw [show p0 + k + 1 + 0 = p0 + (k + 1) from by omega,
            hs (k + 1) u.length (Nat.le_refl _)]
          unfold sliceChunk
          rw [List.take_length]
        simp only [if_neg hadj, hfield, hval, hfv1, hfv2, hh, if_neg hsp]
        simp
    · have hk1 : k + 1 = u.length := by omega
      have hadj : ¬ (p0 + k + 1 < p0 + u.length ∧ chunk[p0 + k + 1]? = some ' ') := by
        intro hcon; omega
      have hval : sliceChunk chunk (p0 + k + 1 + 0) (p0 + u.length) = u.drop (k + 1) := by
        rw [show p0 + k + 1 + 0 = p0 + (k + 1) from by omega,
          hs (k + 1) u.length (Nat.le_refl _)]
        unfold sliceChunk
        rw [List.take_length]
      have hh : (u.drop (k + 1)).head? = none := by
        rw [hk1, List.drop_length]; rfl
      simp only [if_neg hadj, hfield, hval, hfv1, hfv2, hh]
      have hno : ¬ ((none : Option Char) = some ' ') := by simp
      rw [if_neg hno]
      simp

theorem scanEntry_nil (es : ES) (p0 : Nat) (flag : Bool) :
    scanEntry es p0 flag [] = { es with state := entrySt flag } := by
  unfold scanEntry entrySt
  cases flag <;> simp [lineMid_nil]

theorem lineMid_state_ne_fs (es : ES) (p0 : Nat) (u : List Char) (hu : u ≠ []) :
    (lineMid es p0 u).state ≠ FIELD_START := by
  unfold lineMid
  rcases firstIdx (fun c => c = ':') u with _ | k <;> simp [hu]
  · simp [FIELD, FIELD_START]
  · split <;> simp [VALUE_START, VALUE, FIELD_START]

theorem dispatchFinish_stop_closed {closes : Rec → Bool} {co : Core} {out : List Rec}
    {r : Rec} (h : (dispatchFinish closes co out r).2.2 = true) :
    (dispatchFinish closes co out r).1.currentState = CLOSED := by
  unfold dispatchFinish at h ⊢
  by_cases hcl : closes r <;> simp only [hcl, if_pos, if_neg, Bool.false_eq_true,
    if_false, if_true] at h ⊢ <;> split at h <;> simp_all [closeCore]

theorem dispatchBlank_stop_closed {closes : Rec → Bool} {co : Core} {out : List Rec}
    (h : (dispatchBlank closes co out).2.2 = true) :
    (dispatchBlank closes co out).1.currentState = CLOSED := by
  unfold dispatchBlank at h ⊢
  split at h
  case isTrue hdb =>
    rw [if_pos hdb]
    exact dispatchFinish_stop_closed h
  case isFalse => simp at h

theorem drop_shift (chunk u w : List Char) (p0 : Nat) (h : chunk.drop p0 = u ++ w) :
    chunk.drop (p0 + u.length) = w := by
  rw [← List.drop_drop u.length p0, h, List.drop_left]

theorem drop_peel (chunk : List Char) (c : Char) (w : List Char) (p : Nat)
    (h : chunk.drop p = c :: w) : chunk.drop (p + 1) = w := by
  rw [← List.tail_drop, h]
  rfl

theorem linesOf_lf_swallow (rest : List Char) :
    linesOf true ('\n' :: rest) = linesOf false rest := by
  conv_lhs => unfold linesOf
  rw [if_pos ⟨rfl, rfl⟩]

theorem linesOf_flag_eq (flag : Bool) (c : Char) (rest : List Char)
    (h : ¬ (flag = true ∧ c = '\n')) :
    linesOf flag (c :: rest) = linesOf false (c :: rest) := by
  have hF : ¬ ((false : Bool) = true ∧ c = '\n') := by simp
  conv_lhs => unfold linesOf
  conv_rhs => unfold linesOf
  rw [if_neg h, if_neg hF]

theorem linesOf_term_eq (c : Char) (rest : List Char) (h : isTerm c = true) :
    linesOf false (c :: rest) =
      ([] :: (linesOf (c = '\r') rest).1, (linesOf (c = '\r') rest).2.1,
        (linesOf (c = '\r') rest).2.2) := by
  conv_lhs => unfold linesOf
  rw [if_neg (by simp), if_pos h]

theorem linesOf_nonterm_eq (c : Char) (rest : List Char) (h : ¬ isTerm c = true) :
    linesOf false (c :: rest) =
      (match (linesOf false rest).1 with
       | [] => ([], c :: (linesOf false rest).2.1, (linesOf false rest).2.2)
       | l :: ls => ((c :: l) :: ls, (linesOf false rest).2.1, (linesOf false rest).2.2)) := by
  conv_lhs => unfold linesOf
  rw [if_neg (by simp), if_neg h]

theorem effLines_nil (ls : List (List Char)) : effLines [] ls = ls := by
  cases ls <;> simp [effLines]

theorem runLines_nil (closes : Rec → Bool) (co : Core) (out : List Rec) :
    runLines closes co out [] = (co, out) := rfl

theorem runLines_cons (closes : Rec → Bool) (co : Core) (out : List Rec) (l : List Char)
    (ls : List (List Char)) :
    runLines closes co out (l :: ls) =
      (if (processLine closes co out l).2.2 then
        ((processLine closes co out l).1, (processLine closes co out l).2.1)
       else runLines closes (processLine closes co out l).1 (processLine closes co out l).2.1
         ls) := rfl

theorem processLine_blank (closes : Rec → Bool) (co : Core) (out : List Rec) :
    processLine closes co out [] = dispatchBlank closes co out := by
  unfold processLine
  simp

theorem processLine_field (closes : Rec → Bool) (co : Core) (out : List Rec)
    (l : List Char) (hl : l ≠ []) :
    processLine closes co out l = (applyField co (lineFV l).1 (lineFV l).2, out, false) := by
  unfold processLine
  simp [hl]

/-- Master correspondence: scanning the remaining complete-line input from a
line boundary (or from a mid-line state after the consumed prefix `u`) behaves,
on the connection core and on the dispatched records, like folding the
line-level semantics over the decomposed lines, and ends at the line boundary
that `linesOf` reports (unless a listener closed the connection). -/
theorem scan_lines (closes : Rec → Bool) (chunk : List Char) :
    ∀ (input : List Char) (flag : Bool) (u : List Char) (es : ES) (out : List Rec)
      (p0 : Nat) (ls : List (List Char)) (f : Bool),
      linesOf flag input = (ls, [], f) →
      chunk.drop p0 = u ++ input →
      (u ≠ [] → flag = false) →
      (u ≠ [] → input ≠ []) →
      (scanFrom closes chunk (scanEntry es p0 flag u) out input (p0 + u.length)).2 =
          (runLines closes es.core out (effLines u ls)).2 ∧
        (scanFrom closes chunk (scanEntry es p0 flag u) out input (p0 + u.length)).1.core =
          (runLines closes es.core out (effLines u ls)).1 ∧
        ((runLines closes es.core out (effLines u ls)).1.currentState ≠ CLOSED →
          (scanFrom closes chunk (scanEntry es p0 flag u) out input
              (p0 + u.length)).1.state =
            entrySt f) := by
  intro input
  induction input with
  | nil =>
    intro flag u es out p0 ls f hlines hchunk hu hne
    have hu0 : u = [] := by
      by_contra h
      exact (hne h) rfl
    subst hu0
    simp only [linesOf, Prod.mk.injEq] at hlines
    obtain ⟨hls, _, hf⟩ := hlines
    subst hls
    subst hf
    rw [scanEntry_nil]
    exact ⟨rfl, rfl, fun _ => rfl⟩
  | cons c rest ih =>
    intro flag u es out p0 ls f hlines hchunk hu hne
    by_cases hsw : flag = true ∧ c = '\n'
    · obtain ⟨hflag, hc⟩ := hsw
      have hu0 : u = [] := by
        by_contra h
        simp [hu h] at hflag
      subst hu0
      subst hflag
      subst hc
      rw [linesOf_lf_swallow] at hlines
      have hchunk' : chunk.drop (p0 + 1) = [] ++ rest := by
        simpa using drop_peel chunk '\n' rest p0 (by simpa using hchunk)
      rw [scanEntry_nil]
      simp only [List.length_nil, Nat.add_zero, entrySt, if_true]
      rw [scan_acr_lf closes chunk out rest p0 rfl]
      have hIH := ih false [] es out (p0 + 1) ls f hlines hchunk' (by simp) (by simp)
      rw [scanEntry_nil] at hIH
      simpa [entrySt] using hIH
    · have hlines2 : linesOf false (c :: rest) = (ls, [], f) := by
        rw [← linesOf_flag_eq flag c rest hsw]
        exact hlines
      have hstep0 : scanFrom closes chunk (scanEntry es p0 flag u) out (c :: rest)
          (p0 + u.length) =
          scanFrom closes chunk (lineMid es p0 u) out (c :: rest) (p0 + u.length) := by
        by_cases hflag : flag = true
        · have hu0 : u = [] := by
            by_contra h
            simp [hu h] at hflag
          subst hu0
          subst hflag
          have hc : c ≠ '\n' := fun h0 => hsw ⟨rfl, h0⟩
          rw [scanEntry_nil]
          simp only [entrySt, if_true]
          rw [scan_acr_normalize closes chunk out rest (p0 + List.length []) rfl hc,
            lineMid_nil]
        · have hflag0 : flag = false := by simpa using hflag
          subst hflag0
          rw [show scanEntry es p0 false u = lineMid es p0 u from by unfold scanEntry; simp]
      rw [hstep0]
      by_cases hterm : isTerm c = true
      · rcases hr : linesOf (c = '\r') rest with ⟨ls₂, t₂, f₂⟩
        rw [linesOf_term_eq c rest hterm, hr] at hlines2
        simp only [Prod.mk.injEq] at hlines2
        obtain ⟨hls, ht₂, hf₂⟩ := hlines2
        subst hls
        subst ht₂
        subst hf₂
        by_cases hu0 : u = []
        · subst hu0
          simp only [List.length_nil, Nat.add_zero]
          rw [lineMid_nil, scan_term_fs closes chunk out rest p0 rfl hterm]
          simp only [effLines, List.nil_append, runLines_cons, processLine_blank]
          by_cases hstop : (dispatchBlank closes es.core out).2.2 = true
          · rw [if_pos hstop, if_pos hstop]
            refine ⟨rfl, rfl, fun hcl => absurd (dispatchBlank_stop_closed hstop) hcl⟩
          · rw [if_neg hstop, if_neg hstop]
            have hchunk' : chunk.drop (p0 + 1) = [] ++ rest := by
              simpa using drop_peel chunk c rest p0 (by simpa using hchunk)
            have hIH := ih (c = '\r') [] { es with core := (dispatchBlank closes es.core out).1 }
              (dispatchBlank closes es.core out).2.1 (p0 + 1) ls₂ f₂ hr hchunk'
              (by simp) (by simp)
            rw [scanEntry_nil] at hIH
            rw [termSt_entrySt]
            simpa [effLines_nil] using hIH
        · rw [scan_term_mid closes chunk out rest (p0 + u.length)
            (lineMid_state_ne_fs es p0 u hu0) (lineMid_state_ne_acr es p0 u) hterm]
          obtain ⟨hFcore, hFstate⟩ := fieldLineES_lineMid chunk es p0 u c rest hu0 hchunk
          have hchunk' : chunk.drop (p0 + u.length + 1) = [] ++ rest := by
            have h1 : chunk.drop (p0 + u.length) = c :: rest := by
              simpa using drop_shift chunk u (c :: rest) p0 hchunk
            simpa using drop_peel chunk c rest (p0 + u.length) h1
          have hIH := ih (c = '\r') [] (fieldLineES chunk (lineMid es p0 u) c (p0 + u.length))
            out (p0 + u.length + 1) ls₂ f₂ hr hchunk' (by simp) (by simp)
          rw [scanEntry_nil, ← termSt_entrySt, ← hFstate, set_state_id _ _ rfl, hFcore,
            effLines_nil] at hIH
          simp only [List.length_nil, Nat.add_zero] at hIH
          simp only [effLines, List.append_nil, runLines_cons, processLine_field closes
            es.core out u hu0]
          simp only [if_neg (by simp : ¬ (false = true))]
          exact hIH
      · rcases hr : linesOf false rest with ⟨ls₂, t₂, f₂⟩
        rw [linesOf_nonterm_eq c rest hterm, hr] at hlines2
        rcases ls₂ with _ | ⟨l1, ls₃⟩
        · simp at hlines2
        · simp only [Prod.mk.injEq] at hlines2
          obtain ⟨hls, ht₂, hf₂⟩ := hlines2
          subst hls
          subst ht₂
          subst hf₂
          have hrest_ne : rest ≠ [] := by
            intro h0
            subst h0
            simp [linesOf] at hr
          rw [scan_nonterm closes chunk out rest (p0 + u.length)
            (lineMid_state_ne_acr es p0 u) (by simp [hterm]), nonTermStep_lineMid]
          have hIH := ih false (u ++ [c]) es out p0 (l1 :: ls₃) f₂ hr
            (by rw [hchunk]; simp) (by simp) (fun _ => hrest_ne)
          rw [show scanEntry es p0 false (u ++ [c]) = lineMid es p0 (u ++ [c]) from by
            unfold scanEntry; simp] at hIH
          simp only [List.length_append, List.length_cons, List.length_nil, effLines,
            List.append_assoc, List.singleton_append, Nat.add_assoc] at hIH ⊢
          exact hIH

/-! ## Transparency of the line semantics in the byte-accounting fields -/

theorem applyField_transparent (co : Core) (field value : List Char) (tb : List Char)
    (wa : Option Int) (tl : Nat) :
    applyField (setTransparent co tb wa tl) field value =
      setTransparent (applyField co field value) tb wa tl := by
  unfold applyField setTransparent
  split_ifs <;> rfl

theorem dispatchBlank_transparent (closes : Rec → Bool) (co : Core) (out : List Rec)
    (tb : List Char) (wa : Option Int) (tl : Nat) :
    dispatchBlank closes (setTransparent co tb wa tl) out =
      (setTransparent (dispatchBlank closes co out).1 tb wa tl,
        (dispatchBlank closes co out).2.1, (dispatchBlank closes co out).2.2) := by
  unfold dispatchBlank dispatchFinish setTransparent closeCore
  dsimp only
  split_ifs <;> rfl

theorem processLine_transparent (closes : Rec → Bool) (co : Core) (out : List Rec)
    (l : List Char) (tb : List Char) (wa : Option Int) (tl : Nat) :
    processLine closes (setTransparent co tb wa tl) out l =
      (setTransparent (processLine closes co out l).1 tb wa tl,
        (processLine closes co out l).2.1, (processLine closes co out l).2.2) := by
  by_cases hl : l = []
  · subst hl
    rw [processLine_blank, processLine_blank]
    exact dispatchBlank_transparent closes co out tb wa tl
  · rw [processLine_field _ _ _ _ hl, processLine_field _ _ _ _ hl]
    exact congrArg (fun x => (x, out, false)) (applyField_transparent co _ _ tb wa tl)

theorem runLines_transparent (closes : Rec → Bool) (co : Core) (out : List Rec)
    (ls : List (List Char)) (tb : List Char) (wa : Option Int) (tl : Nat) :
    runLines closes (setTransparent co tb wa tl) out ls =
      (setTransparent (runLines closes co out ls).1 tb wa tl,
        (runLines closes co out ls).2) := by
  induction ls generalizing co out with
  | nil => rfl
  | cons l ls ihl =>
    rw [runLines_cons, runLines_cons, processLine_transparent]
    by_cases hstop : (processLine closes co out l).2.2 = true
    · rw [if_pos hstop, if_pos hstop]
    · rw [if_neg hstop, if_neg hstop]
      exact ihl _ _

theorem core_eta_transparent (co : Core) :
    setTransparent co co.textBuffer co.wasActivity co.textLength = co := rfl

theorem runLines_preserve (closes : Rec → Bool) (co : Core) (out : List Rec)
    (ls : List (List Char)) :
    (runLines closes co out ls).1.textBuffer = co.textBuffer ∧
      (runLines closes co out ls).1.wasActivity = co.wasActivity ∧
      (runLines closes co out ls).1.textLength = co.textLength := by
  have h := runLines_transparent closes co out ls co.textBuffer co.wasActivity co.textLength
  rw [core_eta_transparent] at h
  rw [h]
  exact ⟨rfl, rfl, rfl⟩

/-! ## Output accumulation and preservation under non-closing listeners -/

theorem dispatchFinish_out_acc (closes : Rec → Bool) (co : Core) (out : List Rec)
    (r : Rec) :
    (dispatchFinish closes co out r).1 = (dispatchFinish closes co [] r).1 ∧
      (dispatchFinish closes co out r).2.1 = out ++ (dispatchFinish closes co [] r).2.1 ∧
      (dispatchFinish closes co out r).2.2 = (dispatchFinish closes co [] r).2.2 := by
  unfold dispatchFinish
  by_cases hcl : closes r <;> simp only [hcl, if_true, if_false, Bool.false_eq_true] <;>
    split <;> simp

theorem dispatchBlank_out_acc (closes : Rec → Bool) (co : Core) (out : List Rec) :
    (dispatchBlank closes co out).1 = (dispatchBlank closes co []).1 ∧
      (dispatchBlank closes co out).2.1 = out ++ (dispatchBlank closes co []).2.1 ∧
      (dispatchBlank closes co out).2.2 = (dispatchBlank closes co []).2.2 := by
  unfold dispatchBlank
  split_ifs
  · exact dispatchFinish_out_acc closes _ out _
  · exact dispatchFinish_out_acc closes _ out _
  · simp

theorem processLine_out_acc (closes : Rec → Bool) (co : Core) (out : List Rec)
    (l : List Char) :
    (processLine closes co out l).1 = (processLine closes co [] l).1 ∧
      (processLine closes co out l).2.1 = out ++ (processLine closes co [] l).2.1 ∧
      (processLine closes co out l).2.2 = (processLine closes co [] l).2.2 := by
  by_cases hl : l = []
  · subst hl
    rw [processLine_blank, processLine_blank]
    exact dispatchBlank_out_acc closes co out
  · rw [processLine_field _ _ _ _ hl, processLine_field _ _ _ _ hl]
    simp

theorem runLines_out_acc (closes : Rec → Bool) (co : Core) (out : List Rec)
    (ls : List (List Char)) :
    (runLines closes co out ls).1 = (runLines closes co [] ls).1 ∧
      (runLines closes co out ls).2 = out ++ (runLines closes co [] ls).2 := by
  induction ls generalizing co out with
  | nil => simp [runLines_nil]
  | cons l ls ihl =>
    rw [runLines_cons, runLines_cons]
    obtain ⟨h1, h2, h3⟩ := processLine_out_acc closes co out l
    by_cases hstop : (processLine closes co out l).2.2 = true
    · rw [if_pos hstop, if_pos (h3 ▸ hstop), h1, h2]
      exact ⟨rfl, rfl⟩
    · rw [if_neg hstop, if_neg (fun hh => hstop (h3 ▸ hh)), h1, h2]
      obtain ⟨g1, g2⟩ := ihl (processLine closes co [] l).1 (out ++ (processLine closes co [] l).2.1)
      obtain ⟨g1', g2'⟩ := ihl (processLine closes co [] l).1 (processLine closes co [] l).2.1
      rw [g1, g2, g1', g2']
      simp

theorem applyField_currentState (co : Core) (field value : List Char) :
    (applyField co field value).currentState = co.currentState := by
  unfold applyField
  split_ifs <;> rfl

theorem dispatchBlank_noClose (co : Core) (out : List Rec)
    (h : co.currentState ≠ CLOSED) :
    (dispatchBlank noClose co out).2.2 = false ∧
      (dispatchBlank noClose co out).1.currentState = co.currentState := by
  unfold dispatchBlank dispatchFinish noClose
  split_ifs <;> simp_all

theorem runLines_noClose_currentState (co : Core) (out : List Rec)
    (ls : List (List Char)) (h : co.currentState ≠ CLOSED) :
    (runLines noClose co out ls).1.currentState = co.currentState := by
  induction ls generalizing co out with
  | nil => rfl
  | cons l ls ihl =>
    rw [runLines_cons]
    by_cases hl : l = []
    · subst hl
      rw [processLine_blank]
      obtain ⟨h1, h2⟩ := dispatchBlank_noClose co out h
      rw [if_neg (by rw [h1]; simp)]
      rw [ihl _ _ (by rw [h2]; exact h), h2]
    · rw [processLine_field _ _ _ _ hl]
      rw [if_neg (by simp)]
      rw [ihl _ _ (by rw [applyField_currentState]; exact h), applyField_currentState]

theorem runLines_append_noClose (co : Core) (out : List Rec) (ls1 ls2 : List (List Char))
    (h : co.currentState ≠ CLOSED) :
    runLines noClose co out (ls1 ++ ls2) =
      runLines noClose (runLines noClose co out ls1).1 (runLines noClose co out ls1).2
        ls2 := by
  induction ls1 generalizing co out with
  | nil => rfl
  | cons l ls1 ihl =>
    rw [List.cons_append, runLines_cons, runLines_cons]
    by_cases hl : l = []
    · rw [hl, processLine_blank]
      obtain ⟨h1, h2⟩ := dispatchBlank_noClose co out h
      have hcond : ¬ ((dispatchBlank noClose co out).2.2 = true) := by rw [h1]; simp
      simp only [if_neg hcond]
      exact ihl _ _ (by rw [h2]; exact h)
    · rw [processLine_field _ _ _ _ hl]
      have hcond : ¬ (((applyField co (lineFV l).1 (lineFV l).2, out, false) :
          Core × List Rec × Bool).2.2 = true) := by simp
      simp only [if_neg hcond]
      exact ihl _ _ (by rw [applyField_currentState]; exact h)

/-! ## Structure of lastTerm and linesOf -/

theorem lastTerm_cons (c : Char) (rest : List Char) :
    lastTerm (c :: rest) =
      (match lastTerm rest with
       | some i => some (i + 1)
       | none => if isTerm c then some 0 else none) := rfl

theorem lastTerm_cons_none (c : Char) (rest : List Char) (h : lastTerm rest = none) :
    lastTerm (c :: rest) = if isTerm c then some 0 else none := by
  rw [lastTerm_cons, h]

theorem lastTerm_cons_some (c : Char) (rest : List Char) (j : Nat)
    (h : lastTerm rest = some j) : lastTerm (c :: rest) = some (j + 1) := by
  rw [lastTerm_cons, h]

theorem lastTerm_none_iff (T : List Char) : lastTerm T = none ↔ noTerm T = true := by
  induction T with
  | nil => simp [lastTerm, noTerm]
  | cons c rest ih =>
    rcases h : lastTerm rest with _ | i
    · have hr : noTerm rest = true := ih.mp h
      simp only [noTerm, List.all_eq_true, decide_eq_true_eq] at hr
      rw [lastTerm_cons_none c rest h]
      by_cases hc : isTerm c = true
      · rw [if_pos hc]
        simp only [noTerm, List.all_eq_true, decide_eq_true_eq]
        constructor
        · intro hh
          exact Option.noConfusion hh
        · intro hh
          exact absurd hc (hh c (by simp))
      · rw [if_neg hc]
        simp only [noTerm, List.all_eq_true, decide_eq_true_eq]
        constructor
        · intro _ x hx
          rcases List.mem_cons.mp hx with h1 | h1
          · subst h1
            exact hc
          · exact hr x h1
        · intro _
          trivial
    · have hr : ¬ noTerm rest = true := fun hh => by
        rw [ih.mpr hh] at h
        exact Option.noConfusion h
      rw [lastTerm_cons_some c rest i h]
      constructor
      · intro hh
        exact Option.noConfusion hh
      · intro hh
        exfalso
        apply hr
        simp only [noTerm, List.all_eq_true, decide_eq_true_eq] at hh ⊢
        intro x hx
        exact hh x (List.mem_cons_of_mem c hx)

theorem lastTerm_spec (T : List Char) : ∀ (i : Nat), lastTerm T = some i →
    ∃ c, T[i]? = some c ∧ isTerm c = true ∧ noTerm (T.drop (i + 1)) = true := by
  induction T with
  | nil => intro i h; exact Option.noConfusion h
  | cons c rest ih =>
    intro i h
    rcases hr : lastTerm rest with _ | j
    · rw [lastTerm_cons_none c rest hr] at h
      by_cases hc : isTerm c = true
      · rw [if_pos hc] at h
        injection h with h0
        subst h0
        refine ⟨c, by simp, hc, ?_⟩
        simpa using (lastTerm_none_iff rest).mp hr
      · rw [if_neg hc] at h
        exact Option.noConfusion h
    · rw [lastTerm_cons_some c rest j hr] at h
      injection h with h0
      subst h0
      obtain ⟨c', h1, h2, h3⟩ := ih j hr
      exact ⟨c', by simpa using h1, h2, by simpa using h3⟩

theorem take_split_last (T : List Char) (i : Nat) (c : Char) (h : T[i]? = some c) :
    T.take (i + 1) = T.take i ++ [c] := by
  rw [List.take_succ, h]
  rfl

theorem lastTerm_append_noTerm (A B : List Char) (h : lastTerm B = none) :
    lastTerm (A ++ B) = lastTerm A := by
  induction A with
  | nil => simpa using h
  | cons a A ih => rw [List.cons_append, lastTerm_cons, lastTerm_cons, ih]

theorem lastTerm_append_some (A B : List Char) (m : Nat) (h : lastTerm B = some m) :
    lastTerm (A ++ B) = some (A.length + m) := by
  induction A with
  | nil => simpa using h
  | cons a A ih =>
    rw [List.cons_append, lastTerm_cons, ih]
    simp only [List.length_cons]
    congr 1
    omega

theorem linesOf_ended (c : Char) (hc : isTerm c = true) :
    ∀ (A : List Char) (flag : Bool),
      (linesOf flag (A ++ [c])).2.1 = [] ∧
        (flag = false → (linesOf flag (A ++ [c])).1 ≠ []) := by
  intro A
  induction A with
  | nil =>
    intro flag
    by_cases hsw : flag = true ∧ c = '\n'
    · obtain ⟨h1, h2⟩ := hsw
      subst h1
      subst h2
      rw [List.nil_append, linesOf_lf_swallow]
      exact ⟨rfl, fun h => absurd h (by simp)⟩
    · rw [List.nil_append, linesOf_flag_eq _ _ _ hsw, linesOf_term_eq c [] hc]
      exact ⟨rfl, fun _ => by simp⟩
  | cons a A ih =>
    intro flag
    by_cases hsw : flag = true ∧ a = '\n'
    · obtain ⟨h1, h2⟩ := hsw
      subst h1
      subst h2
      rw [List.cons_append, linesOf_lf_swallow]
      exact ⟨(ih false).1, fun h => absurd h (by simp)⟩
    · rw [List.cons_append, linesOf_flag_eq _ _ _ hsw]
      by_cases ha : isTerm a = true
      · rw [linesOf_term_eq a _ ha]
        exact ⟨(ih (a = '\r')).1, fun _ => by simp⟩
      · rw [linesOf_nonterm_eq a _ ha]
        obtain ⟨iht, ihn⟩ := ih false
        rcases hls : (linesOf false (A ++ [c])).1 with _ | ⟨l1, ls⟩
        · exact absurd hls (ihn rfl)
        · simp only [hls]
          exact ⟨iht, fun _ => by simp⟩

theorem linesOf_append (B : List Char) :
    ∀ (A : List Char) (flag : Bool) (ls1 : List (List Char)) (f1 : Bool),
      linesOf flag A = (ls1, [], f1) →
      linesOf flag (A ++ B) =
        (ls1 ++ (linesOf f1 B).1, (linesOf f1 B).2.1, (linesOf f1 B).2.2) := by
  intro A
  induction A with
  | nil =>
    intro flag ls1 f1 h
    simp only [linesOf, Prod.mk.injEq] at h
    obtain ⟨h1, _, h3⟩ := h
    subst h1
    subst h3
    simp
  | cons a A ih =>
    intro flag ls1 f1 h
    by_cases hsw : flag = true ∧ a = '\n'
    · obtain ⟨h1, h2⟩ := hsw
      subst h1
      subst h2
      rw [linesOf_lf_swallow] at h
      rw [List.cons_append, linesOf_lf_swallow]
      exact ih false ls1 f1 h
    · rw [linesOf_flag_eq _ _ _ hsw] at h
      rw [List.cons_append, linesOf_flag_eq _ _ _ hsw]
      by_cases ha : isTerm a = true
      · rw [linesOf_term_eq _ _ ha] at h
        rcases hr : linesOf (a = '\r') A with ⟨ls₂, t₂, f₂⟩
        rw [hr] at h
        simp only [Prod.mk.injEq] at h
        obtain ⟨h1, h2, h3⟩ := h
        subst h1
        subst h2
        subst h3
        rw [linesOf_term_eq _ _ ha, ih (a = '\r') ls₂ f₂ hr]
        simp
      · rw [linesOf_nonterm_eq _ _ ha] at h
        rcases hr : linesOf false A with ⟨ls₂, t₂, f₂⟩
        rw [hr] at h
        rcases ls₂ with _ | ⟨l1, ls₃⟩
        · simp at h
        · simp only [Prod.mk.injEq] at h
          obtain ⟨h1, h2, h3⟩ := h
          subst h1
          subst h2
          subst h3
          rw [linesOf_nonterm_eq _ _ ha, ih false (l1 :: ls₃) f₂ hr]
          simp

/-! ## Characterization of onProgress -/

theorem onProgress_not_open (closes : Rec → Bool) (now : Int) (es : ES) (T : List Char)
    (h : ¬ es.core.currentState = OPEN) : onProgress closes now es T = (es, []) := by
  unfold onProgress
  rw [if_neg h]

theorem onProgress_empty (closes : Rec → Bool) (now : Int) (es : ES)
    (h : es.core.currentState = OPEN) : onProgress closes now es [] = (es, []) := by
  unfold onProgress
  rw [if_pos h]
  simp [lastTerm, scanFrom]

theorem onProgress_buffer (closes : Rec → Bool) (now : Int) (es : ES) (T : List Char)
    (hopen : es.core.currentState = OPEN) (hlast : lastTerm T = none) (hne : T ≠ []) :
    onProgress closes now es T =
      ({ es with core := (setTransparent es.core (es.core.textBuffer ++ T) (some now)
          (es.core.textLength + T.length)) }, []) := by
  unfold onProgress setTransparent
  rw [if_pos hopen]
  simp [hlast, hne, scanFrom]

theorem onProgress_run (closes : Rec → Bool) (now : Int) (es : ES) (T : List Char)
    (i : Nat) (flag : Bool) (ls : List (List Char)) (f : Bool)
    (hopen : es.core.currentState = OPEN)
    (hst : es.state = entrySt flag)
    (hlast : lastTerm T = some i)
    (hlines : linesOf flag (es.core.textBuffer ++ T.take (i + 1)) = (ls, [], f)) :
    (onProgress closes now es T).2 =
        (runLines closes (setTransparent es.core (T.drop (i + 1)) (some now)
          (es.core.textLength + T.length)) [] ls).2 ∧
      (onProgress closes now es T).1.core =
        (runLines closes (setTransparent es.core (T.drop (i + 1)) (some now)
          (es.core.textLength + T.length)) [] ls).1 ∧
      ((runLines closes (setTransparent es.core (T.drop (i + 1)) (some now)
          (es.core.textLength + T.length)) [] ls).1.currentState ≠ CLOSED →
        (onProgress closes now es T).1.state = entrySt f) := by
  have hTne : T ≠ [] := by
    intro h0
    rw [h0] at hlast
    exact Option.noConfusion hlast
  have hmain := scan_lines closes (es.core.textBuffer ++ T.take (i + 1))
    (es.core.textBuffer ++ T.take (i + 1)) flag []
    { es with core := (setTransparent es.core (T.drop (i + 1)) (some now)
        (es.core.textLength + T.length)) } [] 0 ls f hlines (by simp) (by simp) (by simp)
  rw [scanEntry_nil] at hmain
  rw [effLines_nil] at hmain
  unfold onProgress
  rw [if_pos hopen]
  simp only [hlast, hTne]
  simp [setTransparent, hst, hTne] at hmain ⊢
  exact hmain

theorem setTransparent_idem (co : Core) (tb1 : List Char) (wa1 : Option Int) (tl1 : Nat)
    (tb : List Char) (wa : Option Int) (tl : Nat) :
    setTransparent (setTransparent co tb1 wa1 tl1) tb wa tl =
      setTransparent co tb wa tl := rfl

theorem coreView_setTransparent (co : Core) (tb : List Char) (wa : Option Int) (tl : Nat) :
    coreView (setTransparent co tb wa tl) = setTransparent co tb none tl := rfl

theorem setTransparent_currentState (co : Core) (tb : List Char) (wa : Option Int)
    (tl : Nat) : (setTransparent co tb wa tl).currentState = co.currentState := rfl

/-- A chunk with a final terminator decomposes into complete lines. -/
theorem linesOf_of_lastTerm (tb T : List Char) (i : Nat) (flag : Bool)
    (h : lastTerm T = some i) :
    ∃ ls f, linesOf flag (tb ++ T.take (i + 1)) = (ls, [], f) := by
  obtain ⟨c, hc1, hc2, _⟩ := lastTerm_spec T i h
  rcases hl : linesOf flag (tb ++ T.take (i + 1)) with ⟨ls, t, f⟩
  refine ⟨ls, f, ?_⟩
  have hsplit : tb ++ T.take (i + 1) = (tb ++ T.take i) ++ [c] := by
    rw [take_split_last T i c hc1, List.append_assoc]
  have ht := (linesOf_ended c hc2 (tb ++ T.take i) flag).1
  rw [← hsplit, hl] at ht
  simp only at ht
  rw [ht]

/-- The parse outcome of one `onProgress` call does not depend on the
`Date.now()` value, except for the `wasActivity` timestamp. -/
theorem onProgress_time (t1 t2 : Int) (es : ES) (T : List Char) (flag : Bool)
    (hst : es.state = entrySt flag) :
    (onProgress noClose t1 es T).2 = (onProgress noClose t2 es T).2 ∧
      coreView (onProgress noClose t1 es T).1.core =
        coreView (onProgress noClose t2 es T).1.core ∧
      (onProgress noClose t1 es T).1.state = (onProgress noClose t2 es T).1.state := by
  by_cases hopen : es.core.currentState = OPEN
  · rcases hT : lastTerm T with _ | i
    · by_cases hT0 : T = []
      · subst hT0
        rw [onProgress_empty noClose t1 es hopen, onProgress_empty noClose t2 es hopen]
        exact ⟨rfl, rfl, rfl⟩
      · rw [onProgress_buffer noClose t1 es T hopen hT hT0,
          onProgress_buffer noClose t2 es T hopen hT hT0]
        exact ⟨rfl, rfl, rfl⟩
    · obtain ⟨ls, f, hl⟩ := linesOf_of_lastTerm es.core.textBuffer T i flag hT
      obtain ⟨o1, c1, s1⟩ := onProgress_run noClose t1 es T i flag ls f hopen hst hT hl
      obtain ⟨o2, c2, s2⟩ := onProgress_run noClose t2 es T i flag ls f hopen hst hT hl
      rw [runLines_transparent] at o1 c1 s1 o2 c2 s2
      have hcs : (setTransparent (runLines noClose es.core [] ls).1 (T.drop (i + 1))
          (some t1) (es.core.textLength + T.length)).currentState ≠ CLOSED := by
        rw [setTransparent_currentState,
          runLines_noClose_currentState es.core [] ls (by rw [hopen]; simp [OPEN, CLOSED]),
          hopen]
        simp [OPEN, CLOSED]
      have hcs2 : (setTransparent (runLines noClose es.core [] ls).1 (T.drop (i + 1))
          (some t2) (es.core.textLength + T.length)).currentState ≠ CLOSED := hcs
      refine ⟨?_, ?_, ?_⟩
      · rw [o1, o2]
      · rw [c1, c2, coreView_setTransparent, coreView_setTransparent]
      · rw [s1 hcs, s2 hcs2]
  · rw [onProgress_not_open noClose t1 es T hopen, onProgress_not_open noClose t2 es T hopen]
    exact ⟨rfl, rfl, rfl⟩

/-- After a non-closing `onProgress` call on an open connection the connection
is still open and the scan is again at a line boundary. -/
theorem onProgress_noClose_post (now : Int) (es : ES) (T : List Char) (flag : Bool)
    (hopen : es.core.currentState = OPEN) (hst : es.state = entrySt flag) :
    (onProgress noClose now es T).1.core.currentState = OPEN ∧
      ∃ f, (onProgress noClose now es T).1.state = entrySt f := by
  rcases hT : lastTerm T with _ | i
  · by_cases hT0 : T = []
    · subst hT0
      rw [onProgress_empty noClose now es hopen]
      exact ⟨hopen, flag, hst⟩
    · rw [onProgress_buffer noClose now es T hopen hT hT0]
      exact ⟨hopen, flag, hst⟩
  · obtain ⟨ls, f, hl⟩ := linesOf_of_lastTerm es.core.textBuffer T i flag hT
    obtain ⟨o1, c1, s1⟩ := onProgress_run noClose now es T i flag ls f hopen hst hT hl
    have hcs : (runLines noClose (setTransparent es.core (T.drop (i + 1)) (some now)
        (es.core.textLength + T.length)) [] ls).1.currentState = OPEN := by
      rw [runLines_noClose_currentState _ [] ls (by
        rw [setTransparent_currentState, hopen]; simp [OPEN, CLOSED]),
        setTransparent_currentState]
      exact hopen
    refine ⟨?_, f, s1 (by rw [hcs]; simp [OPEN, CLOSED])⟩
    rw [c1, hcs]

theorem open_ne_closed : OPEN ≠ CLOSED := by simp [OPEN, CLOSED]

theorem run_setT_open (co : Core) (ls : List (List Char)) (tb : List Char)
    (wa : Option Int) (tl : Nat) (h : co.currentState = OPEN) :
    (runLines noClose (setTransparent co tb wa tl) [] ls).1.currentState = OPEN := by
  rw [runLines_noClose_currentState _ [] ls
    (by rw [setTransparent_currentState, h]; exact open_ne_closed),
    setTransparent_currentState]
  exact h

theorem run_setT_ne_closed (co : Core) (ls : List (List Char)) (tb : List Char)
    (wa : Option Int) (tl : Nat) (h : co.currentState = OPEN) :
    (runLines noClose (setTransparent co tb wa tl) [] ls).1.currentState ≠ CLOSED := by
  rw [run_setT_open co ls tb wa tl h]
  exact open_ne_closed

/-- Two successive `onProgress` calls deliver the same records, and agree on
every connection variable except the activity timestamp, as a single call fed
the concatenation. -/
theorem feed2 (es : ES) (A B : List Char) (tA tB tAB : Int) (flag : Bool)
    (hopen : es.core.currentState = OPEN) (hst : es.state = entrySt flag) :
    (onProgress noClose tA es A).2 ++
        (onProgress noClose tB (onProgress noClose tA es A).1 B).2 =
      (onProgress noClose tAB es (A ++ B)).2 ∧
      coreView (onProgress noClose tB (onProgress noClose tA es A).1 B).1.core =
        coreView (onProgress noClose tAB es (A ++ B)).1.core ∧
      (onProgress noClose tB (onProgress noClose tA es A).1 B).1.state =
        (onProgress noClose tAB es (A ++ B)).1.state := by
  rcases hA : lastTerm A with _ | k
  · by_cases hA0 : A = []
    · subst hA0
      rw [onProgress_empty noClose tA es hopen]
      simp only [List.nil_append]
      exact onProgress_time tB tAB es B flag hst
    · rw [onProgress_buffer noClose tA es A hopen hA hA0]
      dsimp only
      rcases hB : lastTerm B with _ | m
      · by_cases hB0 : B = []
        · subst hB0
          rw [onProgress_empty noClose tB
            { es with core := (setTransparent es.core (es.core.textBuffer ++ A) (some tA)
                (es.core.textLength + A.length)) } (by exact hopen)]
          simp only [List.append_nil]
          rw [onProgress_buffer noClose tAB es A hopen hA hA0]
          exact ⟨by simp, rfl, rfl⟩
        · rw [onProgress_buffer noClose tB
            { es with core := (setTransparent es.core (es.core.textBuffer ++ A) (some tA)
                (es.core.textLength + A.length)) } B (by exact hopen) hB hB0]
          have hAB : lastTerm (A ++ B) = none := by
            rw [lastTerm_append_noTerm A B hB]
            exact hA
          have hABne : A ++ B ≠ [] := by simp [hA0]
          rw [onProgress_buffer noClose tAB es (A ++ B) hopen hAB hABne]
          refine ⟨by simp, ?_, rfl⟩
          simp [setTransparent, coreView, List.append_assoc, List.length_append]
          omega
      · obtain ⟨ls2, f2, hl2⟩ := linesOf_of_lastTerm (es.core.textBuffer ++ A) B m flag hB
        obtain ⟨o2, c2, s2⟩ := onProgress_run noClose tB
          { es with core := (setTransparent es.core (es.core.textBuffer ++ A) (some tA)
              (es.core.textLength + A.length)) } B m flag ls2 f2 (by exact hopen)
          (by exact hst) hB (by exact hl2)
        have hABl : lastTerm (A ++ B) = some (A.length + m) := lastTerm_append_some A B m hB
        have htake : (A ++ B).take (A.length + m + 1) = A ++ B.take (m + 1) := by
          rw [show A.length + m + 1 = A.length + (m + 1) from by omega, List.take_append]
        have hdrop : (A ++ B).drop (A.length + m + 1) = B.drop (m + 1) := by
          rw [show A.length + m + 1 = A.length + (m + 1) from by omega, List.drop_append]
        have hl2' : linesOf flag (es.core.textBuffer ++ (A ++ B).take (A.length + m + 1)) =
            (ls2, [], f2) := by
          rw [htake, ← List.append_assoc]
          exact hl2
        obtain ⟨o3, c3, s3⟩ := onProgress_run noClose tAB es (A ++ B) (A.length + m) flag
          ls2 f2 hopen hst hABl hl2'
        have hs2 := s2 (run_setT_ne_closed _ ls2 _ _ _ (by exact hopen))
        have hs3 := s3 (run_setT_ne_closed _ ls2 _ _ _ hopen)
        dsimp only at o2 c2
        rw [setTransparent_idem, runLines_transparent] at o2 c2
        rw [hdrop, runLines_transparent] at o3 c3
        refine ⟨?_, ?_, ?_⟩
        · rw [o2, o3]
          simp
        · rw [c2, c3]
          simp [setTransparent, coreView, List.length_append]
          omega
        · rw [hs2, hs3]
  · obtain ⟨ls1, f1, hl1⟩ := linesOf_of_lastTerm es.core.textBuffer A k flag hA
    obtain ⟨o1, c1, s1⟩ := onProgress_run noClose tA es A k flag ls1 f1 hopen hst hA hl1
    have hs1 := s1 (run_setT_ne_closed _ ls1 _ _ _ hopen)
    have hkA : k < A.length := by
      obtain ⟨c, hc1, _, _⟩ := lastTerm_spec A k hA
      by_contra hge
      rw [List.getElem?_eq_none (by omega)] at hc1
      exact Option.noConfusion hc1
    have hopen1 : (onProgress noClose tA es A).1.core.currentState = OPEN :=
      (onProgress_noClose_post tA es A flag hopen hst).1
    rw [runLines_transparent] at o1 c1
    dsimp only at o1
    have htl1 : (onProgress noClose tA es A).1.core.textLength =
        es.core.textLength + A.length := by
      rw [c1]
      rfl
    have htb1 : (onProgress noClose tA es A).1.core.textBuffer = A.drop (k + 1) := by
      rw [c1]
      rfl
    rcases hB : lastTerm B with _ | m
    · by_cases hB0 : B = []
      · subst hB0
        rw [onProgress_empty noClose tB _ hopen1]
        simp only [List.append_nil]
        exact onProgress_time tA tAB es A flag hst
      · rw [onProgress_buffer noClose tB _ B hopen1 hB hB0]
        have hABl : lastTerm (A ++ B) = some k := by
          rw [lastTerm_append_noTerm A B hB]
          exact hA
        have htake : (A ++ B).take (k + 1) = A.take (k + 1) :=
          List.take_append_of_le_length (by omega)
        have hdrop : (A ++ B).drop (k + 1) = A.drop (k + 1) ++ B :=
          List.drop_append_of_le_length (by omega)
        have hl1' : linesOf flag (es.core.textBuffer ++ (A ++ B).take (k + 1)) =
            (ls1, [], f1) := by
          rw [htake]
          exact hl1
        obtain ⟨o5, c5, s5⟩ := onProgress_run noClose tAB es (A ++ B) k flag ls1 f1
          hopen hst hABl hl1'
        have hs5 := s5 (run_setT_ne_closed _ ls1 _ _ _ hopen)
        rw [hdrop, runLines_transparent] at o5 c5
        dsimp only at o5
        refine ⟨?_, ?_, ?_⟩
        · rw [o1, o5]
          simp
        · show coreView (setTransparent (onProgress noClose tA es A).1.core _ _ _) = _
          rw [htb1, htl1, c1, setTransparent_idem, c5]
          simp [setTransparent, coreView, List.length_append]
          omega
        · show (onProgress noClose tA es A).1.state = _
          rw [hs1, hs5]
    · obtain ⟨ls2, f2, hl2⟩ := linesOf_of_lastTerm (A.drop (k + 1)) B m f1 hB
      have hl2r1 : linesOf f1 ((onProgress noClose tA es A).1.core.textBuffer ++
          B.take (m + 1)) = (ls2, [], f2) := by
        rw [htb1]
        exact hl2
      obtain ⟨o2, c2, s2⟩ := onProgress_run noClose tB (onProgress noClose tA es A).1
        B m f1 ls2 f2 hopen1 hs1 hB hl2r1
      have hs2 := s2 (run_setT_ne_closed _ ls2 _ _ _ (by exact hopen1))
      rw [htl1, c1, setTransparent_idem, runLines_transparent] at o2 c2
      dsimp only at o2
      have hABl : lastTerm (A ++ B) = some (A.length + m) := lastTerm_append_some A B m hB
      have htake : (A ++ B).take (A.length + m + 1) = A ++ B.take (m + 1) := by
        rw [show A.length + m + 1 = A.length + (m + 1) from by omega, List.take_append]
      have hdrop : (A ++ B).drop (A.length + m + 1) = B.drop (m + 1) := by
        rw [show A.length + m + 1 = A.length + (m + 1) from by omega, List.drop_append]
      have hlBig : linesOf flag (es.core.textBuffer ++ (A ++ B).take (A.length + m + 1)) =
          (ls1 ++ ls2, [], f2) := by
        rw [htake]
        have hsplitA : es.core.textBuffer ++ (A ++ B.take (m + 1)) =
            (es.core.textBuffer ++ A.take (k + 1)) ++ (A.drop (k + 1) ++ B.take (m + 1)) := by
          conv_lhs => rw [← List.take_append_drop (k + 1) A]
          simp only [List.append_assoc]
        rw [hsplitA, linesOf_append _ _ flag ls1 f1 hl1, hl2]
      obtain ⟨o6, c6, s6⟩ := onProgress_run noClose tAB es (A ++ B) (A.length + m) flag
        (ls1 ++ ls2) f2 hopen hst hABl hlBig
      have hs6 := s6 (run_setT_ne_closed _ (ls1 ++ ls2) _ _ _ hopen)
      rw [hdrop, runLines_transparent,
        runLines_append_noClose es.core [] ls1 ls2 (by rw [hopen]; exact open_ne_closed),
        (runLines_out_acc noClose _ _ ls2).1, (runLines_out_acc noClose _ _ ls2).2]
        at o6 c6
      refine ⟨?_, ?_, ?_⟩
      · rw [o1, o2, o6]
      · rw [c2, c6]
        simp [setTransparent, coreView, List.length_append]
        omega
      · rw [hs2, hs6]

/-- Feeding a list of chunks one at a time produces the same records, the same
core (up to the activity timestamp) and the same scanner entry state as feeding
their concatenation in a single call, provided the connection is open and the
scanner sits at a line boundary and no listener closes the source. -/
theorem feed_fold (cs : List (Int × List Char)) (es : ES) (flag : Bool) (t : Int)
    (hopen : es.core.currentState = OPEN) (hst : es.state = entrySt flag) :
    (feedList noClose es cs).2 = (onProgress noClose t es (cs.map Prod.snd).flatten).2 ∧
      coreView (feedList noClose es cs).1.core =
        coreView (onProgress noClose t es (cs.map Prod.snd).flatten).1.core ∧
      (feedList noClose es cs).1.state =
        (onProgress noClose t es (cs.map Prod.snd).flatten).1.state := by
  induction cs generalizing es flag with
  | nil =>
    simp only [feedList, List.map_nil, List.flatten_nil]
    rw [onProgress_empty noClose t es hopen]
    exact ⟨rfl, rfl, rfl⟩
  | cons p rest ih =>
    obtain ⟨tA, A⟩ := p
    obtain ⟨hopen1, f1, hst1⟩ := onProgress_noClose_post tA es A flag hopen hst
    obtain ⟨io, ic, is1⟩ := ih (onProgress noClose tA es A).1 f1 hopen1 hst1
    obtain ⟨fo, fc, fs⟩ := feed2 es A ((rest.map Prod.snd).flatten) tA t t flag hopen hst
    simp only [feedList, List.map_cons, List.flatten_cons]
    refine ⟨?_, ?_, ?_⟩
    · rw [io]
      exact fo
    · rw [ic]
      exact fc
    · rw [is1]
      exact fs

/-! ## The claims -/

/-- Claim C1: feeding any sequence of chunks one by one to `onProgress` in the
Open state produces the same ordered record sequence, the same connection state
(up to the `wasActivity` timestamp) and the same scan state as feeding the whole
concatenation in a single call. -/
theorem chunking_invariance (cs : List (Int × List Char)) (es : ES) (flag : Bool)
    (t : Int) (hopen : es.core.currentState = OPEN) (hst : es.state = entrySt flag) :
    (feedList noClose es cs).2 = (onProgress noClose t es (cs.map Prod.snd).flatten).2 ∧
      coreView (feedList noClose es cs).1.core =
        coreView (onProgress noClose t es (cs.map Prod.snd).flatten).1.core ∧
      (feedList noClose es cs).1.state =
        (onProgress noClose t es (cs.map Prod.snd).flatten).1.state :=
  feed_fold cs es flag t hopen hst

/-- Witness for C1: a stream split mid-line and between the `\r` and `\n` of a
`\r\n` terminator. -/
theorem chunking_invariance_witness :
    sampleES.core.currentState = OPEN ∧ sampleES.state = entrySt false ∧
      ((feedList noClose sampleES c1chunks).2 =
          (onProgress noClose 9 sampleES (c1chunks.map Prod.snd).flatten).2 ∧
        coreView (feedList noClose sampleES c1chunks).1.core =
          coreView (onProgress noClose 9 sampleES (c1chunks.map Prod.snd).flatten).1.core ∧
        (feedList noClose sampleES c1chunks).1.state =
          (onProgress noClose 9 sampleES (c1chunks.map Prod.snd).flatten).1.state) :=
  ⟨rfl, rfl, chunking_invariance c1chunks sampleES false 9 rfl rfl⟩

/-- Claim C2 (amended): when the start signal arrives in the Connecting state
with a bad status or content type, the handler emits an error notification
(with the status text whitespace-collapsed for a non-200 status) and a console
error, but does not abort the transport, does not change the connection state,
and does not arm the retry timer: the bare `close()` of the failure branch is
the global `close`, not the instance method, so the state is left untouched
(Connecting, hence never terminally closed). -/
theorem onStart_failure_no_abort (status : Int) (statusText : List Char)
    (contentType : Option (List Char)) (headers : Headers) (now : Int) (es : ES)
    (hconn : es.core.currentState = CONNECTING)
    (hfail : ¬ (status = 200 ∧ (match contentType with
      | some ct => contentTypeOk ct
      | none => false) = true)) :
    (onStart status statusText contentType headers now es).1 = es ∧
      (onStart status statusText contentType headers now es).2 =
        [Eff.connError status
            (if status ≠ 200 ∧ statusText ≠ [] then collapseWs false statusText
             else statusText) headers,
          Eff.consoleError] ∧
      Eff.abortTransport ∉ (onStart status statusText contentType headers now es).2 ∧
      (onStart status statusText contentType headers now es).1.core.currentState =
        CONNECTING ∧
      (onStart status statusText contentType headers now es).1.core.timeout =
        es.core.timeout := by
  unfold onStart
  rw [if_pos hconn, if_neg hfail]
  refine ⟨rfl, rfl, ?_, hconn, rfl⟩
  simp

/-- Witness for C2 (amended): a 500 response on a connecting source. -/
theorem onStart_failure_no_abort_witness :
    (onStart 500 "Server Error".toList (some "text/event-stream".toList) [] 7
        connectingES).1 = connectingES ∧
      (onStart 500 "Server Error".toList (some "text/event-stream".toList) [] 7
          connectingES).2 =
        [Eff.connError 500
            (if (500 : Int) ≠ 200 ∧ "Server Error".toList ≠ [] then
              collapseWs false "Server Error".toList
             else "Server Error".toList) [],
          Eff.consoleError] ∧
      Eff.abortTransport ∉
        (onStart 500 "Server Error".toList (some "text/event-stream".toList) [] 7
          connectingES).2 ∧
      (onStart 500 "Server Error".toList (some "text/event-stream".toList) [] 7
          connectingES).1.core.currentState = CONNECTING ∧
      (onStart 500 "Server Error".toList (some "text/event-stream".toList) [] 7
          connectingES).1.core.timeout = connectingES.core.timeout :=
  onStart_failure_no_abort 500 "Server Error".toList (some "text/event-stream".toList)
    [] 7 connectingES (by decide) (by decide)

/-- Counterexample for C2 as stated: a 500 status in the Connecting state does
not abort the transport, does not move the state to Idle (`WAITING`), and does
not arm the retry timer; the connection stays in Connecting with its heartbeat
timer untouched. -/
theorem onStart_failure_counterexample :
    (onStart 500 "Internal  Error".toList (some "text/event-stream".toList) [] 7
        connectingES).1 = connectingES ∧
      (onStart 500 "Internal  Error".toList (some "text/event-stream".toList) [] 7
          connectingES).2 =
        [Eff.connError 500 "Internal Error".toList [], Eff.consoleError] ∧
      Eff.abortTransport ∉
        (onStart 500 "Internal  Error".toList (some "text/event-stream".toList) [] 7
          connectingES).2 ∧
      (onStart 500 "Internal  Error".toList (some "text/event-stream".toList) [] 7
          connectingES).1.core.currentState ≠ WAITING ∧
      (onStart 500 "Internal  Error".toList (some "text/event-stream".toList) [] 7
          connectingES).1.core.timeout = some 45000 := by
  decide

/-- Evaluation of `onFinish` in the reconnecting states. -/
theorem onFinish_eval (hasError : Bool) (es : ES)
    (h : es.core.currentState = OPEN ∨ es.core.currentState = CONNECTING) :
    (onFinish hasError es).1 =
      { es with core :=
        { es.core with
          currentState := WAITING,
          timeout := some es.core.retry,
          retry := clampDuration (min (es.core.initialRetry * 16) (es.core.retry * 2)),
          readyState := CONNECTING } } ∧
      (onFinish hasError es).2 =
        Eff.finishError :: (if hasError then [Eff.consoleError] else []) := by
  unfold onFinish
  rw [if_pos h]
  exact ⟨rfl, rfl⟩

/-- Claim C6: on a transport finish in the Open or Connecting state the single
timer slot is armed with the retry interval as it stands, and only then the
interval is updated to `clamp(min(16 * initialRetry, 2 * retry), 1000,
18000000)`; after a server `retry: 5000` field the next reconnect is scheduled
at exactly 5000 ms. -/
theorem retry_armed_before_doubling (hasError : Bool) (es : ES)
    (h : es.core.currentState = OPEN ∨ es.core.currentState = CONNECTING) :
    (onFinish hasError es).1.core.timeout = some es.core.retry ∧
      (onFinish hasError es).1.core.retry =
        clampDuration (min (es.core.initialRetry * 16) (es.core.retry * 2)) ∧
      (onFinish hasError es).1.core.readyState = CONNECTING ∧
      (onFinish hasError es).1.core.currentState = WAITING ∧
      (onFinish hasError
          { es with core := applyField es.core "retry".toList "5000".toList
            }).1.core.timeout = some 5000 := by
  have hA : applyField es.core "retry".toList "5000".toList =
      { es.core with initialRetry := 5000, retry := 5000 } := by
    unfold applyField
    rw [if_neg (by decide), if_neg (by decide), if_neg (by decide), if_pos rfl]
    have hp : parseDuration (some "5000".toList) es.core.initialRetry = 5000 := by
      show clampDuration ((parseIntBase10 "5000".toList).getD es.core.initialRetry) = 5000
      rw [show parseIntBase10 "5000".toList = some 5000 from by decide, Option.getD_some]
      decide
    rw [hp]
  obtain ⟨e1, _⟩ := onFinish_eval hasError es h
  obtain ⟨e5, _⟩ := onFinish_eval hasError
    { es with core := applyField es.core "retry".toList "5000".toList }
    (by rw [hA]; exact h)
  rw [e1, e5, hA]
  exact ⟨rfl, rfl, rfl, rfl, rfl⟩

/-- Witness for C6: a finish on the open sample connection arms its current
3000 ms interval and doubles it to 6000 ms for the next time. -/
theorem retry_armed_before_doubling_witness :
    (onFinish true sampleES).1.core.timeout = some sampleES.core.retry ∧
      (onFinish true sampleES).1.core.retry =
        clampDuration (min (sampleES.core.initialRetry * 16) (sampleES.core.retry * 2)) ∧
      (onFinish true
          { sampleES with core := applyField sampleES.core "retry".toList "5000".toList
            }).1.core.timeout = some 5000 := by
  have h := retry_armed_before_doubling true sampleES (Or.inl rfl)
  exact ⟨h.1, h.2.1, h.2.2.2.2⟩

/-- Claim C7 (amended): every `retry` field whose value parses as an integer
(zero and negative values included) overwrites both the stored initial retry
and the current interval with the clamped parse; only a value with no leading
integer (`parseIntBase10` gives `none`) falls back to the stored initial retry,
which is itself re-clamped into both fields.  `999999999` is clamped to the
upper bound 18000000, and `0` to the lower bound 1000 rather than ignored. -/
theorem retry_field_update (co : Core) (v : List Char) :
    (applyField co "retry".toList v).initialRetry =
        clampDuration ((parseIntBase10 v).getD co.initialRetry) ∧
      (applyField co "retry".toList v).retry =
        clampDuration ((parseIntBase10 v).getD co.initialRetry) ∧
      (applyField co "retry".toList "999999999".toList).retry = 18000000 ∧
      (applyField co "retry".toList "999999999".toList).initialRetry = 18000000 ∧
      (applyField co "retry".toList ['0']).retry = 1000 := by
  have hA : ∀ w : List Char, applyField co "retry".toList w =
      { co with initialRetry := parseDuration (some w) co.initialRetry,
                retry := parseDuration (some w) co.initialRetry } := by
    intro w
    unfold applyField
    rw [if_neg (by decide), if_neg (by decide), if_neg (by decide), if_pos rfl]
  rw [hA v, hA "999999999".toList, hA ['0']]
  have h9 : parseDuration (some "999999999".toList) co.initialRetry = 18000000 := by
    show clampDuration ((parseIntBase10 "999999999".toList).getD co.initialRetry) =
      18000000
    rw [show parseIntBase10 "999999999".toList = some 999999999 from by decide,
      Option.getD_some]
    decide
  have h0 : parseDuration (some ['0']) co.initialRetry = 1000 := by
    show clampDuration ((parseIntBase10 ['0']).getD co.initialRetry) = 1000
    rw [show parseIntBase10 ['0'] = some 0 from by decide, Option.getD_some]
    decide
  refine ⟨rfl, rfl, ?_, ?_, ?_⟩
  · show parseDuration (some "999999999".toList) co.initialRetry = 18000000
    exact h9
  · show parseDuration (some "999999999".toList) co.initialRetry = 18000000
    exact h9
  · show parseDuration (some ['0']) co.initialRetry = 1000
    exact h0

/-- Counterexample for C7 as stated: `retry: 0` is not ignored on the sample
connection (initial retry 3000): both stored values become the lower clamp
bound 1000; a negative value behaves the same way. -/
theorem retry_zero_counterexample :
    (applyField sampleCore "retry".toList ['0']).retry = 1000 ∧
      (applyField sampleCore "retry".toList ['0']).retry ≠ sampleCore.retry ∧
      (applyField sampleCore "retry".toList ['0']).initialRetry ≠
        sampleCore.initialRetry ∧
      (applyField sampleCore "retry".toList ['-', '5']).retry = 1000 ∧
      (applyField sampleCore "retry".toList "999999999".toList).retry = 18000000 := by
  decide

/-! ## Delivery analysis: the dispatch point and close during delivery -/

theorem closesClean_dropLast {closes : Rec → Bool} {l : List Rec}
    (h : closesClean closes l) : closesClean closes l.dropLast :=
  fun r hr => h r (List.dropLast_subset l hr)

theorem closesClean_append {closes : Rec → Bool} {out : List Rec} {r : Rec}
    (h : closesClean closes out) (hr : closes r = false) :
    closesClean closes (out ++ [r]) := by
  intro x hx
  rcases List.mem_append.mp hx with hx | hx
  · exact h x hx
  · rw [List.mem_singleton.mp hx]
    exact hr

theorem applyField_lastEventId (co : Core) (field value : List Char) :
    (applyField co field value).lastEventId = co.lastEventId := by
  unfold applyField
  split_ifs <;> rfl

theorem applyField_lastEventIdBuffer (co : Core) (field value : List Char)
    (h : field ≠ "id".toList) :
    (applyField co field value).lastEventIdBuffer = co.lastEventIdBuffer := by
  unfold applyField
  split_ifs <;> simp_all

/-- Full case analysis of record delivery. -/
theorem dispatchFinish_cases (closes : Rec → Bool) (co : Core) (out : List Rec)
    (r : Rec) :
    ∃ stop co2, dispatchFinish closes co out r = (co2, out ++ [r], stop) ∧
      co2.lastEventIdBuffer = co.lastEventIdBuffer ∧
      co2.lastEventId = co.lastEventId ∧
      co2.wasActivity = co.wasActivity ∧
      (stop = false → co2.dataBuffer = [] ∧ co2.eventTypeBuffer = []) ∧
      (closes r = true → stop = true) := by
  unfold dispatchFinish
  by_cases hcl : closes r
  · rw [if_pos hcl]
    dsimp only
    rw [show (closeCore co).currentState = CLOSED from rfl, if_pos rfl]
    exact ⟨true, closeCore co, rfl, rfl, rfl, rfl, fun h => absurd h (by simp),
      fun _ => rfl⟩
  · rw [if_neg hcl]
    dsimp only
    by_cases hC : co.currentState = CLOSED
    · rw [if_pos hC]
      exact ⟨true, co, rfl, rfl, rfl, rfl, fun h => absurd h (by simp),
        fun h => absurd h hcl⟩
    · rw [if_neg hC]
      exact ⟨false, { co with dataBuffer := [], eventTypeBuffer := [] }, rfl, rfl, rfl,
        rfl, fun _ => ⟨rfl, rfl⟩, fun h => absurd h hcl⟩

/-- Full case analysis of the dispatch point. -/
theorem dispatchBlank_cases (closes : Rec → Bool) (co : Core) (out : List Rec) :
    (co.dataBuffer = [] ∧ dispatchBlank closes co out =
        ({ co with dataBuffer := [], eventTypeBuffer := [] }, out, false)) ∨
      (co.dataBuffer ≠ [] ∧ ∃ stop co2,
        dispatchBlank closes co out = (co2, out ++ [dbRec co], stop) ∧
        co2.lastEventIdBuffer = co.lastEventIdBuffer ∧
        co2.lastEventId = co.lastEventIdBuffer ∧
        co2.wasActivity = co.wasActivity ∧
        (stop = false → co2.dataBuffer = [] ∧ co2.eventTypeBuffer = []) ∧
        (closes (dbRec co) = true → stop = true)) := by
  by_cases hdb : co.dataBuffer = []
  · left
    refine ⟨hdb, ?_⟩
    unfold dispatchBlank
    rw [if_neg (by simp [hdb])]
  · right
    refine ⟨hdb, ?_⟩
    have key : dispatchBlank closes co out =
        dispatchFinish closes
          { co with
            lastEventId := co.lastEventIdBuffer,
            eventTypeBuffer :=
              if co.eventTypeBuffer = [] then msgType else co.eventTypeBuffer }
          out (dbRec co) := by
      unfold dispatchBlank
      rw [if_pos hdb]
      rfl
    rw [key]
    obtain ⟨stop, co2, heq, hb, hl, hw, hs, hc⟩ := dispatchFinish_cases closes
      { co with
        lastEventId := co.lastEventIdBuffer,
        eventTypeBuffer :=
          if co.eventTypeBuffer = [] then msgType else co.eventTypeBuffer }
      out (dbRec co)
    exact ⟨stop, co2, heq, hb.trans rfl, hl.trans rfl, hw.trans rfl, hs, hc⟩

/-- During one scan, a record whose listener closes the source is the last of
the batch. -/
theorem scanFrom_clean (closes : Rec → Bool) (chunk : List Char) :
    ∀ (rest : List Char) (es : ES) (out : List Rec) (pos : Nat),
      closesClean closes out →
      closesClean closes ((scanFrom closes chunk es out rest pos).2).dropLast := by
  intro rest
  induction rest with
  | nil =>
    intro es out pos h
    rw [scan_nil]
    exact closesClean_dropLast h
  | cons c rest ih =>
    intro es out pos h
    have main : ∀ (es : ES), es.state ≠ AFTER_CR →
        closesClean closes ((scanFrom closes chunk es out (c :: rest) pos).2).dropLast := by
      intro es hne
      by_cases hterm : isTerm c
      · by_cases hfs : es.state = FIELD_START
        · rw [scan_term_fs closes chunk out rest pos hfs hterm]
          dsimp only
          rcases dispatchBlank_cases closes es.core out with ⟨hdb, heq⟩ |
            ⟨hdb, stop, co2, heq, hbuf, hlid, hwa, hstop, hcl⟩
          · rw [heq]
            dsimp only
            rw [if_neg (by simp)]
            exact ih _ _ _ h
          · rw [heq]
            dsimp only
            cases stop
            · rw [if_neg (by simp)]
              have hclf : closes (dbRec es.core) = false := by
                cases hc2 : closes (dbRec es.core)
                · rfl
                · exact absurd (hcl hc2) (by simp)
              exact ih _ _ _ (closesClean_append h hclf)
            · rw [if_pos rfl]
              dsimp only
              rw [List.dropLast_concat]
              exact h
        · rw [scan_term_mid closes chunk out rest pos hfs hne hterm]
          exact ih _ _ _ h
      · rw [scan_nonterm closes chunk out rest pos hne hterm]
        exact ih _ _ _ h
    by_cases hacr : es.state = AFTER_CR
    · by_cases hlf : c = '\n'
      · subst hlf
        rw [scan_acr_lf closes chunk out rest pos hacr]
        exact ih _ _ _ h
      · rw [scan_acr_normalize closes chunk out rest pos hacr hlf]
        exact main _ (by simp [FIELD_START, AFTER_CR])
    · exact main es hacr

/-- Claim C3: no record is delivered while the connection is not Open, and if a
listener invoked for a record of a batch calls `close()`, that record is the
last one delivered from the batch: every record before the last is one whose
delivery closes nothing. -/
theorem close_stops_batch (closes : Rec → Bool) (now : Int) (es : ES) (T : List Char) :
    (es.core.currentState ≠ OPEN → onProgress closes now es T = (es, [])) ∧
      closesClean closes ((onProgress closes now es T).2).dropLast := by
  constructor
  · intro h
    exact onProgress_not_open closes now es T h
  · by_cases hopen : es.core.currentState = OPEN
    · unfold onProgress
      rw [if_pos hopen]
      dsimp only
      exact scanFrom_clean closes _ _ _ _ _ (fun r hr => (List.not_mem_nil r hr).elim)
    · rw [onProgress_not_open closes now es T hopen]
      intro r hr
      simp at hr

/-- Witness for C3: a batch of three records whose second record's listener
calls `close()`; the first two are delivered, the third is not, and every
delivered record but the last closes nothing. -/
theorem close_stops_batch_witness :
    closesClean closeOnStop
        ((onProgress closeOnStop 5 sampleES
          "data: a\n\ndata: stop\n\ndata: b\n\n".toList).2).dropLast ∧
      (onProgress closeOnStop 5 sampleES
          "data: a\n\ndata: stop\n\ndata: b\n\n".toList).2 =
        [⟨msgType, "a".toList, []⟩, ⟨msgType, "stop".toList, []⟩] :=
  ⟨(close_stops_batch closeOnStop 5 sampleES
      "data: a\n\ndata: stop\n\ndata: b\n\n".toList).2, by decide⟩

/-- Claim C4: a blank line flushes exactly one record when `dataBuffer` is
nonempty, built from the pending event type (defaulting to `message`) and the
pending event id, and updates `lastEventId` from the pending id at that flush;
a blank line with empty `dataBuffer` flushes nothing; both buffers are cleared
whenever the dispatch does not stop the scan; and no field line ever changes
`lastEventId` mid-record. -/
theorem blank_line_flush (closes : Rec → Bool) (co : Core) (out : List Rec)
    (l : List Char) :
    (co.dataBuffer ≠ [] →
      (dispatchBlank closes co out).2.1 = out ++ [dbRec co] ∧
      (dispatchBlank closes co out).1.lastEventId = co.lastEventIdBuffer) ∧
      (co.dataBuffer = [] →
        dispatchBlank closes co out =
          ({ co with dataBuffer := [], eventTypeBuffer := [] }, out, false)) ∧
      ((dispatchBlank closes co out).2.2 = false →
        (dispatchBlank closes co out).1.dataBuffer = [] ∧
        (dispatchBlank closes co out).1.eventTypeBuffer = []) ∧
      (applyField co (lineFV l).1 (lineFV l).2).lastEventId = co.lastEventId := by
  rcases dispatchBlank_cases closes co out with ⟨hdb, heq⟩ |
    ⟨hdb, stop, co2, heq, hbuf, hlid, hwa, hstop, hcl⟩
  · refine ⟨fun h => absurd hdb h, fun _ => heq, ?_, applyField_lastEventId co _ _⟩
    rw [heq]
    exact fun _ => ⟨rfl, rfl⟩
  · refine ⟨fun _ => ?_, fun h => absurd h hdb, ?_, applyField_lastEventId co _ _⟩
    · rw [heq]
      exact ⟨rfl, hlid⟩
    · rw [heq]
      exact hstop

/-- Witness for C4: flushing a connection holding one data line and the pending
id `7` emits one record carrying that id and updates `lastEventId`. -/
theorem blank_line_flush_witness :
    ((dataCore.dataBuffer ≠ [] →
      (dispatchBlank noClose dataCore []).2.1 = [] ++ [dbRec dataCore] ∧
      (dispatchBlank noClose dataCore []).1.lastEventId = dataCore.lastEventIdBuffer) ∧
      (dataCore.dataBuffer = [] →
        dispatchBlank noClose dataCore [] =
          ({ dataCore with dataBuffer := [], eventTypeBuffer := [] }, [], false)) ∧
      ((dispatchBlank noClose dataCore []).2.2 = false →
        (dispatchBlank noClose dataCore []).1.dataBuffer = [] ∧
        (dispatchBlank noClose dataCore []).1.eventTypeBuffer = []) ∧
      (applyField dataCore (lineFV "data: x".toList).1
        (lineFV "data: x".toList).2).lastEventId = dataCore.lastEventId) ∧
      (dispatchBlank noClose dataCore []).2.1 = [⟨msgType, "hi".toList, "7".toList⟩] :=
  ⟨blank_line_flush noClose dataCore [] "data: x".toList, by decide⟩

/-! ## Persistence of the pending event id -/

theorem runLines_id_free (closes : Rec → Bool) (ls : List (List Char)) :
    ∀ (co : Core) (out : List Rec), (∀ l ∈ ls, (lineFV l).1 ≠ "id".toList) →
      (runLines closes co out ls).1.lastEventIdBuffer = co.lastEventIdBuffer ∧
      ∀ r ∈ (runLines closes co out ls).2, r ∈ out ∨
        r.lastEventId = co.lastEventIdBuffer := by
  induction ls with
  | nil =>
    intro co out h
    rw [runLines_nil]
    exact ⟨rfl, fun r hr => Or.inl hr⟩
  | cons l ls ih =>
    intro co out h
    rw [runLines_cons]
    by_cases hl : l = []
    · subst hl
      rw [processLine_blank]
      rcases dispatchBlank_cases closes co out with ⟨hdb, heq⟩ |
        ⟨hdb, stop, co2, heq, hbuf, hlid, hwa, hstop, hcl⟩
      · rw [heq]
        dsimp only
        rw [if_neg (by simp)]
        obtain ⟨ih1, ih2⟩ := ih _ out (fun x hx => h x (List.mem_cons_of_mem _ hx))
        exact ⟨ih1, ih2⟩
      · rw [heq]
        dsimp only
        cases stop
        · rw [if_neg (by simp)]
          obtain ⟨ih1, ih2⟩ := ih co2 (out ++ [dbRec co])
            (fun x hx => h x (List.mem_cons_of_mem _ hx))
          rw [hbuf] at ih1 ih2
          refine ⟨ih1, fun r hr => ?_⟩
          rcases ih2 r hr with hr2 | hr2
          · rcases List.mem_append.mp hr2 with hr3 | hr3
            · exact Or.inl hr3
            · rw [List.mem_singleton.mp hr3]
              exact Or.inr rfl
          · exact Or.inr hr2
        · rw [if_pos rfl]
          dsimp only
          refine ⟨hbuf, fun r hr => ?_⟩
          rcases List.mem_append.mp hr with hr3 | hr3
          · exact Or.inl hr3
          · rw [List.mem_singleton.mp hr3]
            exact Or.inr rfl
    · rw [processLine_field closes co out l hl]
      dsimp only
      rw [if_neg (by simp)]
      obtain ⟨ih1, ih2⟩ := ih (applyField co (lineFV l).1 (lineFV l).2) out
        (fun x hx => h x (List.mem_cons_of_mem _ hx))
      rw [applyField_lastEventIdBuffer co _ _ (h l (List.mem_cons_self l ls))] at ih1 ih2
      exact ⟨ih1, ih2⟩

/-- Claim C10: lines carrying no `id` field never change the pending event id:
every record flushed from such lines carries the pending id the connection
already held, and a reconnect (the `WAITING` branch of the watchdog) seeds the
pending id with the connection's committed `lastEventId`. -/
theorem pending_id_persistence (closes : Rec → Bool) (co : Core) (out : List Rec)
    (ls : List (List Char)) (now : Int) (es : ES)
    (hno : ∀ l ∈ ls, (lineFV l).1 ≠ "id".toList) :
    (runLines closes co out ls).1.lastEventIdBuffer = co.lastEventIdBuffer ∧
      (∀ r ∈ (runLines closes co out ls).2, r ∈ out ∨
        r.lastEventId = co.lastEventIdBuffer) ∧
      (es.core.currentState = WAITING →
        (onTimeout now es).1.core.lastEventIdBuffer = es.core.lastEventId) := by
  obtain ⟨h1, h2⟩ := runLines_id_free closes ls co out hno
  refine ⟨h1, h2, fun hw => ?_⟩
  unfold onTimeout
  dsimp only
  rw [if_neg (not_not_intro hw)]

/-- Witness for C10: a data line and a blank line leave the pending id `42` in
place, and the flushed record carries it. -/
theorem pending_id_persistence_witness :
    (runLines noClose idCore [] ["data: x".toList, []]).1.lastEventIdBuffer =
        idCore.lastEventIdBuffer ∧
      (∀ r ∈ (runLines noClose idCore [] ["data: x".toList, []]).2,
        r ∈ ([] : List Rec) ∨ r.lastEventId = idCore.lastEventIdBuffer) ∧
      (sampleES.core.currentState = WAITING →
        (onTimeout 3 sampleES).1.core.lastEventIdBuffer = sampleES.core.lastEventId) :=
  pending_id_persistence noClose idCore [] ["data: x".toList, []] 3 sampleES (by decide)

/-! ## The heartbeat watchdog -/

theorem applyField_wasActivity (co : Core) (field value : List Char) :
    (applyField co field value).wasActivity = co.wasActivity := by
  unfold applyField
  split_ifs <;> rfl

theorem dispatchBlank_wasActivity (closes : Rec → Bool) (co : Core) (out : List Rec) :
    (dispatchBlank closes co out).1.wasActivity = co.wasActivity := by
  rcases dispatchBlank_cases closes co out with ⟨_, heq⟩ |
    ⟨_, stop, co2, heq, _, _, hwa, _, _⟩
  · rw [heq]
  · rw [heq]
    exact hwa

/-- The scan loop never touches the activity flag. -/
theorem scanFrom_wasActivity (closes : Rec → Bool) (chunk : List Char) :
    ∀ (rest : List Char) (es : ES) (out : List Rec) (pos : Nat),
      (scanFrom closes chunk es out rest pos).1.core.wasActivity =
        es.core.wasActivity := by
  intro rest
  induction rest with
  | nil =>
    intro es out pos
    rw [scan_nil]
  | cons c rest ih =>
    intro es out pos
    have main : ∀ (es : ES), es.state ≠ AFTER_CR →
        (scanFrom closes chunk es out (c :: rest) pos).1.core.wasActivity =
          es.core.wasActivity := by
      intro es hne
      by_cases hterm : isTerm c
      · by_cases hfs : es.state = FIELD_START
        · rw [scan_term_fs closes chunk out rest pos hfs hterm]
          dsimp only
          by_cases hstop : (dispatchBlank closes es.core out).2.2
          · rw [if_pos hstop]
            exact dispatchBlank_wasActivity closes es.core out
          · rw [if_neg hstop]
            rw [ih _ _ _]
            exact dispatchBlank_wasActivity closes es.core out
        · rw [scan_term_mid closes chunk out rest pos hfs hne hterm, ih _ _ _]
          show (applyField _ _ _).wasActivity = _
          rw [applyField_wasActivity]
          split_ifs <;> rfl
      · rw [scan_nonterm closes chunk out rest pos hne hterm, ih _ _ _]
        unfold nonTermStep
        split_ifs <;> rfl
    by_cases hacr : es.state = AFTER_CR
    · by_cases hlf : c = '\n'
      · subst hlf
        rw [scan_acr_lf closes chunk out rest pos hacr]
        exact ih _ _ _
      · rw [scan_acr_normalize closes chunk out rest pos hacr hlf]
        exact main _ (by simp [FIELD_START, AFTER_CR])
    · exact main es hacr

/-- Claim C9: the watchdog fired after observed activity rearms itself for the
remaining part of the rolling window and clears the activity flag, taking no
abort action; fired with no observed activity while holding a transport it
performs exactly one stall-induced abort-and-retry (finish effects, abort,
state `WAITING` with the retry timer armed); a subsequent firing, now in
`WAITING`, only opens a new transport; and any nonempty chunk marks activity at
the current time. -/
theorem heartbeat_watchdog (now : Int) (es : ES) :
    (∀ t : Int, es.core.wasActivity = some t → t ≠ 0 →
      es.core.currentState ≠ WAITING →
      (onTimeout now es).2 = [] ∧
      (onTimeout now es).1.core.timeout =
        some (max (t + es.core.heartbeatTimeout - now) 1) ∧
      (onTimeout now es).1.core.wasActivity = none ∧
      (onTimeout now es).1.core.currentState = es.core.currentState) ∧
      (es.core.wasActivity = none → es.core.abortController = true →
        es.core.currentState = OPEN →
        (onTimeout now es).2 = [Eff.finishError, Eff.consoleError, Eff.abortTransport] ∧
        (onTimeout now es).1.core.currentState = WAITING ∧
        (onTimeout now es).1.core.timeout = some es.core.retry ∧
        (onTimeout now es).1.core.abortController = false) ∧
      (es.core.currentState = WAITING →
        (onTimeout now es).2 =
          [Eff.openTransport (computeRequestURL es.core.url es.core.lastEventId)]) ∧
      (∀ (closes : Rec → Bool) (T : List Char), T ≠ [] →
        es.core.currentState = OPEN →
        (onProgress closes now es T).1.core.wasActivity = some now) := by
  refine ⟨?_, ?_, ?_, ?_⟩
  · intro t ht ht0 hw
    unfold onTimeout
    dsimp only
    rw [if_pos hw, if_neg (by simp [jsFalsy, ht, ht0]), ht]
    exact ⟨rfl, rfl, rfl, rfl⟩
  · intro ha hab hopen
    unfold onTimeout
    dsimp only
    rw [if_pos (by rw [hopen]; simp [OPEN, WAITING]),
      if_pos (by rw [ha, hab]; simp [jsFalsy])]
    unfold onFinish
    dsimp only
    rw [if_pos (Or.inl hopen)]
    dsimp only
    rw [if_pos hab]
    exact ⟨rfl, rfl, rfl, rfl⟩
  · intro hw
    unfold onTimeout
    dsimp only
    rw [if_neg (not_not_intro hw)]
  · intro closes T hT hopen
    unfold onProgress
    rw [if_pos hopen]
    dsimp only
    rw [if_pos hT]
    rw [scanFrom_wasActivity]

/-- Witness for C9: the stalled sample connection (no observed activity) fires
exactly one abort-and-retry from the watchdog. -/
theorem heartbeat_watchdog_witness :
    (onTimeout 100 sampleES).2 =
        [Eff.finishError, Eff.consoleError, Eff.abortTransport] ∧
      (onTimeout 100 sampleES).1.core.currentState = WAITING ∧
      (onTimeout 100 sampleES).1.core.timeout = some sampleES.core.retry ∧
      (onTimeout 100 sampleES).1.core.abortController = false :=
  (heartbeat_watchdog 100 sampleES).2.1 rfl rfl rfl

/-! ## Data lines join with embedded newlines -/

theorem lineFV_data (v : List Char) :
    lineFV ("data: ".toList ++ v) = ("data".toList, v) := by
  have h4 : firstIdx (fun c => c = ':') ("data: ".toList ++ v) = some 4 :=
    firstIdx_append_some v (by decide)
  unfold lineFV
  rw [h4]
  dsimp only
  rw [show ("data: ".toList ++ v).take 4 = "data".toList from
      List.take_append_of_le_length (by decide),
    show ("data: ".toList ++ v).drop 5 = ' ' :: v from by
      rw [List.drop_append_of_le_length (by decide)]
      rfl]
  simp

theorem noTerm_append (a b : List Char) :
    noTerm (a ++ b) = (noTerm a && noTerm b) := by
  unfold noTerm
  rw [List.all_append]

theorem linesOf_line (l : List Char) (rest : List Char) (h : noTerm l = true) :
    linesOf false (l ++ '\n' :: rest) =
      (l :: (linesOf false rest).1, (linesOf false rest).2.1,
        (linesOf false rest).2.2) := by
  induction l with
  | nil =>
    rw [List.nil_append, linesOf_term_eq '\n' rest (by decide)]
    simp
  | cons c l ih =>
    have hc : ¬ isTerm c = true := by
      unfold noTerm at h
      simp only [List.all_cons, Bool.and_eq_true, decide_eq_true_eq] at h
      simpa using h.1
    have hl : noTerm l = true := by
      unfold noTerm at h ⊢
      simp only [List.all_cons, Bool.and_eq_true] at h
      exact h.2
    rw [List.cons_append, linesOf_nonterm_eq c _ hc, ih hl]

theorem linesOf_roundtrip (ls : List (List Char)) (h : ∀ l ∈ ls, noTerm l = true) :
    linesOf false ((ls.map fun l => l ++ ['\n']).flatten) = (ls, [], false) := by
  induction ls with
  | nil => rfl
  | cons l ls ih =>
    rw [List.map_cons, List.flatten_cons, List.append_assoc, List.singleton_append,
      linesOf_line l _ (h l (List.mem_cons_self l ls)),
      ih (fun x hx => h x (List.mem_cons_of_mem _ hx))]

theorem runLines_data (vs : List (List Char)) :
    ∀ (co : Core) (out : List Rec),
      runLines noClose co out (vs.map fun v => "data: ".toList ++ v) =
        ({ co with dataBuffer := co.dataBuffer ++ (vs.map fun v => '\n' :: v).flatten },
          out) := by
  induction vs with
  | nil =>
    intro co out
    rw [List.map_nil, runLines_nil]
    simp
  | cons v vs ih =>
    intro co out
    rw [List.map_cons, runLines_cons,
      processLine_field noClose co out _ (by simp), lineFV_data v]
    dsimp only
    rw [if_neg (by simp)]
    rw [show applyField co "data".toList v =
        { co with dataBuffer := co.dataBuffer ++ '\n' :: v } from by
      unfold applyField
      rw [if_pos rfl]]
    rw [ih]
    simp

theorem intercalate_newline (v0 : List Char) (vr : List (List Char)) :
    List.intercalate ['\n'] (v0 :: vr) =
      v0 ++ ((vr.map fun v => '\n' :: v).flatten) := by
  induction vr generalizing v0 with
  | nil => simp [List.intercalate, List.intersperse]
  | cons v1 vr ih =>
    rw [show List.intercalate ['\n'] (v0 :: v1 :: vr) =
        v0 ++ ['\n'] ++ List.intercalate ['\n'] (v1 :: vr) from by
      simp [List.intercalate, List.intersperse]]
    rw [ih v1]
    simp

/-- Claim C5 (amended): each `data` line appends a newline and its value to the
buffer, and a record whose data lines carry the values `v1 ... vk` is delivered
with payload `v1\n...\nvk`: the values joined by embedded newlines, exactly
the first joining newline dropped.  The payload has no leading newline when the
first value is nonempty — but when the first value is empty and another data
line follows, the payload does start with a newline (see the counterexample),
so the claim's "never starts with a leading newline" does not hold for every
record. -/
theorem data_lines_join (vs : List (List Char)) (es : ES) (now : Int)
    (hvs : vs ≠ []) (hnt : ∀ v ∈ vs, noTerm v = true)
    (hopen : es.core.currentState = OPEN) (hst : es.state = FIELD_START)
    (hdb : es.core.dataBuffer = []) (heb : es.core.eventTypeBuffer = [])
    (htb : es.core.textBuffer = []) :
    (onProgress noClose now es
        ((vs.map fun v => "data: ".toList ++ v ++ ['\n']).flatten ++ ['\n'])).2 =
      [⟨msgType, List.intercalate ['\n'] vs, es.core.lastEventIdBuffer⟩] ∧
      (∀ r ∈ (onProgress noClose now es
          ((vs.map fun v => "data: ".toList ++ v ++ ['\n']).flatten ++ ['\n'])).2,
        vs.head?.getD [] ≠ [] → r.data.head? ≠ some '\n') ∧
      ∀ r ∈ (onProgress noClose now es
          ((vs.map fun v => "data: ".toList ++ v ++ ['\n']).flatten ++ ['\n'])).2,
        vs.head? = some [] → 1 < vs.length → r.data.head? = some '\n' := by
  obtain ⟨v0, vr, rfl⟩ : ∃ v0 vr, vs = v0 :: vr := by
    cases vs with
    | nil => exact absurd rfl hvs
    | cons a b => exact ⟨a, b, rfl⟩
  have hlines0 := linesOf_roundtrip
    (((v0 :: vr).map fun v => "data: ".toList ++ v) ++ [[]])
    (by
      intro l hl
      rcases List.mem_append.mp hl with hl | hl
      · obtain ⟨v, hv, rfl⟩ := List.mem_map.mp hl
        rw [noTerm_append, hnt v hv]
        decide
      · rw [List.mem_singleton.mp hl]
        rfl)
  have hTeq : (((((v0 :: vr).map fun v => "data: ".toList ++ v) ++ [[]]).map
      fun l => l ++ ['\n']).flatten) =
        ((v0 :: vr).map fun v => "data: ".toList ++ v ++ ['\n']).flatten ++ ['\n'] := by
    simp [List.map_append, List.map_map, Function.comp_def, List.append_assoc]
  rw [hTeq] at hlines0
  have hlast : lastTerm
      (((v0 :: vr).map fun v => "data: ".toList ++ v ++ ['\n']).flatten ++ ['\n']) =
      some ((((v0 :: vr).map fun v => "data: ".toList ++ v ++ ['\n']).flatten).length
        + 0) :=
    lastTerm_append_some _ _ 0 (by decide)
  rw [Nat.add_zero] at hlast
  have htake : ∀ A : List Char, (A ++ ['\n']).take (A.length + 1) = A ++ ['\n'] := by
    intro A
    rw [List.take_append]
    rfl
  have hdrop : ∀ A : List Char, (A ++ ['\n']).drop (A.length + 1) = [] := by
    intro A
    rw [List.drop_append]
    rfl
  obtain ⟨o, c, st⟩ := onProgress_run noClose now es
    (((v0 :: vr).map fun v => "data: ".toList ++ v ++ ['\n']).flatten ++ ['\n'])
    ((((v0 :: vr).map fun v => "data: ".toList ++ v ++ ['\n']).flatten).length)
    false (((v0 :: vr).map fun v => "data: ".toList ++ v) ++ [[]]) false
    hopen (by rw [hst]; rfl) hlast
    (by rw [htb, List.nil_append, htake]; exact hlines0)
  rw [hdrop] at o
  rw [runLines_append_noClose _ [] _ [[]]
    (by rw [setTransparent_currentState, hopen]; exact open_ne_closed)] at o
  rw [runLines_data (v0 :: vr) _ []] at o
  dsimp only at o
  rw [show (setTransparent es.core []
      (some now) (es.core.textLength +
        ((((v0 :: vr).map fun v => "data: ".toList ++ v ++ ['\n']).flatten ++
          ['\n']).length))).dataBuffer = [] from hdb, List.nil_append] at o
  rw [runLines_cons, processLine_blank] at o
  rcases dispatchBlank_cases noClose
      { setTransparent es.core []
          (some now) (es.core.textLength +
            ((((v0 :: vr).map fun v => "data: ".toList ++ v ++ ['\n']).flatten ++
              ['\n']).length)) with
        dataBuffer := (((v0 :: vr).map fun v => '\n' :: v).flatten) } [] with
    ⟨hdb2, heq⟩ | ⟨_, stop, co2, heq, _, _, _, _, _⟩
  · exact absurd hdb2 (by simp)
  · rw [heq] at o
    have hrec : dbRec
        { setTransparent es.core []
            (some now) (es.core.textLength +
              ((((v0 :: vr).map fun v => "data: ".toList ++ v ++ ['\n']).flatten ++
                ['\n']).length)) with
          dataBuffer := (((v0 :: vr).map fun v => '\n' :: v).flatten) } =
        ⟨msgType, List.intercalate ['\n'] (v0 :: vr), es.core.lastEventIdBuffer⟩ := by
      unfold dbRec
      rw [show ({ setTransparent es.core []
          (some now) (es.core.textLength +
            ((((v0 :: vr).map fun v => "data: ".toList ++ v ++ ['\n']).flatten ++
              ['\n']).length)) with
          dataBuffer := (((v0 :: vr).map fun v => '\n' :: v).flatten) } :
            Core).eventTypeBuffer = [] from heb, if_pos rfl]
      rw [intercalate_newline]
      rfl
    have houts : (onProgress noClose now es
        (((v0 :: vr).map fun v => "data: ".toList ++ v ++ ['\n']).flatten ++
          ['\n'])).2 =
        [⟨msgType, List.intercalate ['\n'] (v0 :: vr), es.core.lastEventIdBuffer⟩] := by
      rw [o]
      cases stop
      · rw [if_neg (by simp)]
        rw [runLines_nil]
        rw [hrec]
        rfl
      · rw [if_pos rfl]
        rw [hrec]
        rfl
    refine ⟨houts, ?_, ?_⟩
    · intro r hr hv0
      rw [houts, List.mem_singleton] at hr
      subst hr
      dsimp only
      rw [intercalate_newline]
      cases v0 with
      | nil => simp at hv0
      | cons c0 v0t =>
        rw [List.cons_append, List.head?_cons]
        have hc0 : ¬ isTerm c0 = true := by
          have := hnt (c0 :: v0t) (List.mem_cons_self _ _)
          unfold noTerm at this
          simp only [List.all_cons, Bool.and_eq_true, decide_eq_true_eq] at this
          simpa using this.1
        simp only [isTerm, decide_eq_true_eq, not_or] at hc0
        intro hcontra
        exact hc0.1 (by injection hcontra)
    · intro r hr h0 hlen
      rw [houts, List.mem_singleton] at hr
      subst hr
      dsimp only
      rw [intercalate_newline]
      have hv0 : v0 = [] := by
        rw [List.head?_cons] at h0
        exact Option.some.inj h0
      subst hv0
      cases vr with
      | nil => simp at hlen
      | cons v1 vrt =>
        rw [List.nil_append, List.map_cons, List.flatten_cons]
        rfl

/-- Witness for C5 (amended): two data lines `hello` and `world` are delivered
as one record with payload `hello\nworld` and no leading newline. -/
theorem data_lines_join_witness :
    (onProgress noClose 4 sampleES
        ((["hello".toList, "world".toList].map
          fun v => "data: ".toList ++ v ++ ['\n']).flatten ++ ['\n'])).2 =
      [⟨msgType, List.intercalate ['\n'] ["hello".toList, "world".toList],
        sampleES.core.lastEventIdBuffer⟩] ∧
      (∀ r ∈ (onProgress noClose 4 sampleES
          ((["hello".toList, "world".toList].map
            fun v => "data: ".toList ++ v ++ ['\n']).flatten ++ ['\n'])).2,
        ["hello".toList, "world".toList].head?.getD [] ≠ [] →
          r.data.head? ≠ some '\n') ∧
      ∀ r ∈ (onProgress noClose 4 sampleES
          ((["hello".toList, "world".toList].map
            fun v => "data: ".toList ++ v ++ ['\n']).flatten ++ ['\n'])).2,
        ["hello".toList, "world".toList].head? = some [] →
          1 < (["hello".toList, "world".toList] : List (List Char)).length →
            r.data.head? = some '\n' :=
  data_lines_join ["hello".toList, "world".toList] sampleES 4 (by decide) (by decide)
    rfl rfl rfl rfl rfl

/-- Counterexample for C5 as stated: a record whose first data line carries an
empty value followed by `data: x` is delivered with payload `\nx`, which does
start with a newline. -/
theorem data_leading_newline_counterexample :
    (onProgress noClose 5 sampleES "data:\ndata: x\n\n".toList).2 =
      [⟨msgType, '\n' :: ['x'], []⟩] ∧
      ∃ r ∈ (onProgress noClose 5 sampleES "data:\ndata: x\n\n".toList).2,
        r.data.head? = some '\n' := by
  decide

/-! ## The reconnect request URL -/

theorem splitAmp_cons_amp (rest : List Char) :
    splitAmp ('&' :: rest) = [] :: splitAmp rest := by
  conv_lhs => unfold splitAmp
  rw [if_pos rfl]

theorem splitAmp_cons_nonamp (c : Char) (rest : List Char) (hc : c ≠ '&') :
    splitAmp (c :: rest) =
      (match splitAmp rest with
       | [] => [[c]]
       | s :: ss => (c :: s) :: ss) := by
  conv_lhs => unfold splitAmp
  rw [if_neg hc]

theorem splitAmp_ne_nil (q : List Char) : splitAmp q ≠ [] := by
  cases q with
  | nil => simp [splitAmp]
  | cons c rest =>
    by_cases hc : c = '&'
    · subst hc
      rw [splitAmp_cons_amp]
      simp
    · rw [splitAmp_cons_nonamp c rest hc]
      rcases h : splitAmp rest with _ | ⟨s, ss⟩ <;> simp

theorem splitAmp_cons_exists (q : List Char) : ∃ s ss, splitAmp q = s :: ss := by
  rcases h : splitAmp q with _ | ⟨s, ss⟩
  · exact absurd h (splitAmp_ne_nil q)
  · exact ⟨s, ss, rfl⟩

theorem splitAmp_append_amp (a b : List Char) :
    splitAmp (a ++ '&' :: b) = splitAmp a ++ splitAmp b := by
  induction a with
  | nil =>
    rw [List.nil_append, splitAmp_cons_amp]
    rfl
  | cons c a ih =>
    by_cases hc : c = '&'
    · subst hc
      rw [List.cons_append, splitAmp_cons_amp, splitAmp_cons_amp, ih]
      rfl
    · rw [List.cons_append, splitAmp_cons_nonamp c _ hc, splitAmp_cons_nonamp c a hc, ih]
      obtain ⟨s, ss, h⟩ := splitAmp_cons_exists a
      rw [h]
      rfl

theorem splitAmp_noAmp (t : List Char) (h : '&' ∉ t) : splitAmp t = [t] := by
  induction t with
  | nil => rfl
  | cons c t ih =>
    have hc : c ≠ '&' := by
      intro hce
      exact h (by rw [← hce]; exact List.mem_cons_self c t)
    rw [splitAmp_cons_nonamp c t hc, ih (fun hm => h (List.mem_cons_of_mem c hm))]

theorem splitAmp_append_noAmp (t : List Char) (r : List Char) (h : '&' ∉ t)
    (st : List Char) (ss : List (List Char)) (hr : splitAmp r = st :: ss) :
    splitAmp (t ++ r) = (t ++ st) :: ss := by
  induction t with
  | nil =>
    rw [List.nil_append, hr]
    rfl
  | cons c t ih =>
    have hc : c ≠ '&' := by
      intro hce
      exact h (by rw [← hce]; exact List.mem_cons_self c t)
    rw [List.cons_append, splitAmp_cons_nonamp c _ hc,
      ih (fun hm => h (List.mem_cons_of_mem c hm))]
    rfl

theorem splitAmp_segments_noAmp (q : List Char) : ∀ s ∈ splitAmp q, '&' ∉ s := by
  induction q with
  | nil =>
    intro s hs
    rw [show splitAmp [] = [[]] from rfl] at hs
    rw [List.mem_singleton.mp hs]
    simp
  | cons c q ih =>
    by_cases hc : c = '&'
    · subst hc
      rw [splitAmp_cons_amp]
      intro s hs
      rcases List.mem_cons.mp hs with h1 | h1
      · subst h1
        simp
      · exact ih s h1
    · rw [splitAmp_cons_nonamp c q hc]
      obtain ⟨s0, ss0, h0⟩ := splitAmp_cons_exists q
      rw [h0]
      intro s hs
      rcases List.mem_cons.mp hs with h1 | h1
      · subst h1
        intro hmem
        rcases List.mem_cons.mp hmem with h2 | h2
        · exact hc h2.symm
        · exact ih s0 (by rw [h0]; exact List.mem_cons_self s0 ss0) h2
      · exact ih s (by rw [h0]; exact List.mem_cons_of_mem s0 h1)

theorem pctEncodeByte_chars (b : Nat) :
    ∀ x ∈ pctEncodeByte b, x ≠ '&' ∧ x ≠ '?' ∧ x ≠ '=' := by
  have hhex : ∀ n : Nat, hexUpper.getD n '0' ≠ '&' ∧ hexUpper.getD n '0' ≠ '?' ∧
      hexUpper.getD n '0' ≠ '=' := by
    intro n
    have hall : ∀ x ∈ hexUpper, x ≠ '&' ∧ x ≠ '?' ∧ x ≠ '=' := by decide
    rcases h' : hexUpper[n]? with _ | x
    · rw [List.getD_eq_getElem?_getD, h']
      exact ⟨by decide, by decide, by decide⟩
    · rw [List.getD_eq_getElem?_getD, h']
      exact hall x (List.getElem?_mem h')
  intro x hx
  unfold pctEncodeByte at hx
  rcases List.mem_cons.mp hx with h | h
  · subst h
    exact ⟨by decide, by decide, by decide⟩
  rcases List.mem_cons.mp h with h | h
  · subst h
    exact hhex _
  rcases List.mem_cons.mp h with h | h
  · subst h
    exact hhex _
  · simp at h

theorem encodeURIComponent_chars (s : List Char) :
    ∀ x ∈ encodeURIComponent s, x ≠ '&' ∧ x ≠ '?' ∧ x ≠ '=' := by
  induction s with
  | nil =>
    intro x hx
    simp [encodeURIComponent] at hx
  | cons c rest ih =>
    intro x hx
    unfold encodeURIComponent at hx
    rcases List.mem_append.mp hx with hx | hx
    · by_cases hu : uriUnreserved c
      · rw [if_pos hu] at hx
        rw [List.mem_singleton.mp hx]
        refine ⟨?_, ?_, ?_⟩ <;> intro hce <;> rw [hce] at hu <;>
          exact absurd hu (by decide)
      · rw [if_neg hu] at hx
        obtain ⟨l2, hl2, hxl2⟩ := List.mem_flatten.mp hx
        obtain ⟨b, _, rfl⟩ := List.mem_map.mp hl2
        exact pctEncodeByte_chars b x hxl2
    · exact ih x hx

theorem takeWhile_full_append (a : List Char) (p : Char → Bool)
    (hp : ∀ c ∈ a, p c = true) (b : Char) (hb : p b = false) (r : List Char) :
    (a ++ b :: r).takeWhile p = a := by
  induction a with
  | nil => simp [List.takeWhile_cons, hb]
  | cons c a ih =>
    rw [List.cons_append, List.takeWhile_cons, hp c (List.mem_cons_self c a), if_pos rfl,
      ih (fun x hx => hp x (List.mem_cons_of_mem c hx))]

theorem segName_keyed (enc : List Char) :
    segName (lastEventIdQueryParameterName ++ '=' :: enc) =
      lastEventIdQueryParameterName := by
  unfold segName
  exact takeWhile_full_append lastEventIdQueryParameterName _ (by decide) '=' (by decide)
    enc

theorem splitAmp_joinMapped_head (ss : List (List Char)) :
    ∃ tl, splitAmp ((ss.map fun t =>
      if segName t = lastEventIdQueryParameterName then [] else '&' :: t).flatten) =
      [] :: tl := by
  induction ss with
  | nil => exact ⟨[], rfl⟩
  | cons t ss ih =>
    rw [List.map_cons, List.flatten_cons]
    by_cases ht : segName t = lastEventIdQueryParameterName
    · rw [if_pos ht, List.nil_append]
      exact ih
    · rw [if_neg ht, List.cons_append, splitAmp_cons_amp]
      exact ⟨_, rfl⟩

theorem splitAmp_joinMapped_filter (ss : List (List Char)) (h : ∀ t ∈ ss, '&' ∉ t) :
    ((splitAmp ((ss.map fun t =>
        if segName t = lastEventIdQueryParameterName then [] else '&' :: t).flatten)).filter
      (fun s => s ≠ [])) =
      ((ss.filter (fun s => s ≠ [])).filter
        (fun s => segName s ≠ lastEventIdQueryParameterName)) := by
  induction ss with
  | nil => rfl
  | cons t ss ih =>
    rw [List.map_cons, List.flatten_cons]
    by_cases ht : segName t = lastEventIdQueryParameterName
    · rw [if_pos ht, List.nil_append, ih (fun x hx => h x (List.mem_cons_of_mem t hx))]
      by_cases ht0 : t = []
      · rw [List.filter_cons_of_neg (by simp [ht0])]
      · rw [List.filter_cons_of_pos (by simp [ht0]),
          List.filter_cons_of_neg (by simp [ht])]
    · rw [if_neg ht, List.cons_append, splitAmp_cons_amp]
      obtain ⟨tl, htl⟩ := splitAmp_joinMapped_head ss
      rw [splitAmp_append_noAmp t _ (h t (List.mem_cons_self t ss)) [] tl htl,
        List.append_nil]
      have ihh := ih (fun x hx => h x (List.mem_cons_of_mem t hx))
      rw [htl, List.filter_cons_of_neg (by simp)] at ihh
      rw [List.filter_cons_of_neg (by simp)]
      by_cases ht0 : t = []
      · rw [List.filter_cons_of_neg (by simp [ht0]), ihh,
          List.filter_cons_of_neg (by simp [ht0])]
      · rw [List.filter_cons_of_pos (by simp [ht0]), ihh,
          List.filter_cons_of_pos (by simp [ht0]),
          List.filter_cons_of_pos (by simp [ht])]

theorem splitAmp_replace_filter (q : List Char) (hq : q.head? ≠ some '&') :
    ((splitAmp (replaceQuery q)).filter (fun s => s ≠ [])) =
      (((splitAmp q).filter (fun s => s ≠ [])).filter
        (fun s => segName s ≠ lastEventIdQueryParameterName)) := by
  cases q with
  | nil => rfl
  | cons c rest =>
  have hc : c ≠ '&' := by
    intro hce
    exact hq (by rw [hce]; rfl)
  obtain ⟨s0, ss0, h0⟩ := splitAmp_cons_exists (c :: rest)
  have hs0ne : s0 ≠ [] := by
    have h0c := h0
    rw [splitAmp_cons_nonamp c rest hc] at h0c
    rcases h' : splitAmp rest with _ | ⟨t, ts⟩ <;> rw [h'] at h0c
    · injection h0c with h1 h2
      rw [← h1]
      simp
    · injection h0c with h1 h2
      rw [← h1]
      simp
  have hseg := splitAmp_segments_noAmp (c :: rest)
  unfold replaceQuery
  rw [h0]
  dsimp only
  rw [if_neg hs0ne]
  by_cases hs0 : segName s0 = lastEventIdQueryParameterName
  · rw [if_pos hs0, List.nil_append,
      splitAmp_joinMapped_filter ss0
        (fun t ht => hseg t (by rw [h0]; exact List.mem_cons_of_mem s0 ht))]
    by_cases h00 : s0 = []
    · rw [List.filter_cons_of_neg (by simp [h00])]
    · rw [List.filter_cons_of_pos (by simp [h00]),
        List.filter_cons_of_neg (by simp [hs0])]
  · rw [if_neg hs0]
    obtain ⟨tl, htl⟩ := splitAmp_joinMapped_head ss0
    rw [splitAmp_append_noAmp s0 _
      (hseg s0 (by rw [h0]; exact List.mem_cons_self s0 ss0)) [] tl htl,
      List.append_nil]
    have ihh := splitAmp_joinMapped_filter ss0
      (fun t ht => hseg t (by rw [h0]; exact List.mem_cons_of_mem s0 ht))
    rw [htl, List.filter_cons_of_neg (by simp)] at ihh
    by_cases h00 : s0 = []
    · rw [List.filter_cons_of_neg (by simp [h00]), ihh,
        List.filter_cons_of_neg (by simp [h00])]
    · rw [List.filter_cons_of_pos (by simp [h00]), ihh,
        List.filter_cons_of_pos (by simp [h00]),
        List.filter_cons_of_pos (by simp [hs0])]

theorem filter_contra_name (l : List (List Char)) :
    ((l.filter fun s => segName s ≠ lastEventIdQueryParameterName).filter
      fun s => segName s = lastEventIdQueryParameterName) = [] := by
  induction l with
  | nil => rfl
  | cons s l ih =>
    by_cases hs : segName s = lastEventIdQueryParameterName
    · rw [List.filter_cons_of_neg (by simp [hs])]
      exact ih
    · rw [List.filter_cons_of_pos (by simp [hs]), List.filter_cons_of_neg (by simp [hs])]
      exact ih

theorem firstIdx_take_succ {p : Char → Bool} {u : List Char} {k : Nat}
    (h : firstIdx p u = some k) : firstIdx p (u.take (k + 1)) = some k := by
  induction u generalizing k with
  | nil => simp [firstIdx] at h
  | cons c rest ih =>
    rw [firstIdx_cons] at h
    split at h
    · rename_i hp
      cases h
      rw [List.take_succ_cons, List.take_zero, firstIdx_cons, if_pos hp]
    · rename_i hp
      obtain ⟨j, hj, hjk⟩ := Option.map_eq_some'.mp h
      subst hjk
      rw [List.take_succ_cons, firstIdx_cons, if_neg hp, ih hj]
      rfl

theorem paramsOf_no_query (u : List Char)
    (h : firstIdx (fun c => c = '?') u = none) : paramsOf u = [] := by
  unfold paramsOf urlQuery
  rw [h]
  rfl

theorem paramsOf_query (u : List Char) (i : Nat)
    (h : firstIdx (fun c => c = '?') u = some i) :
    paramsOf u = (splitAmp (u.drop (i + 1))).filter (fun s => s ≠ []) := by
  unfold paramsOf urlQuery
  rw [h]
  rfl

/-- Claim C8 (amended): on a reconnect with a nonempty `lastEventId`, a
non-`data:`, non-`blob:` URL, and a query string that does not begin with `&`,
the request URL's query parameters are exactly the base URL's parameters minus
every `lastEventId` parameter, in their original order, followed by one
`lastEventId` parameter carrying the encoded id — so the parameter occurs
exactly once.  When the query does begin with `&`, the regex's zero-length
match at position 0 keeps the segment after that `&` even if it is named
`lastEventId`, and the program duplicates the parameter (see the
counterexample).  With an empty id, or a `data:`/`blob:` URL, the base URL is
used unchanged. -/
theorem reconnect_url_query (url lastEventId : List Char) :
    (url.take 5 ≠ "data:".toList ∧ url.take 5 ≠ "blob:".toList ∧ lastEventId ≠ [] ∧
      (url.drop ((firstIdx (fun c => c = '?') url).getD url.length + 1)).head? ≠
        some '&' →
      paramsOf (computeRequestURL url lastEventId) =
        (paramsOf url).filter (fun s => segName s ≠ lastEventIdQueryParameterName) ++
          [lastEventIdQueryParameterName ++ '=' :: encodeURIComponent lastEventId] ∧
      ((paramsOf (computeRequestURL url lastEventId)).filter
          (fun s => segName s = lastEventIdQueryParameterName)).length = 1) ∧
      (lastEventId = [] → computeRequestURL url lastEventId = url) ∧
      ((url.take 5 = "data:".toList ∨ url.take 5 = "blob:".toList) →
        computeRequestURL url lastEventId = url) := by
  refine ⟨?_, ?_, ?_⟩
  · rintro ⟨h1, h2, h3, hq0⟩
    have hWamp : '&' ∉ lastEventIdQueryParameterName ++ '=' ::
        encodeURIComponent lastEventId := by
      intro hm
      rcases List.mem_append.mp hm with hm | hm
      · exact absurd hm (by decide)
      · rcases List.mem_cons.mp hm with hm | hm
        · simp at hm
        · exact (encodeURIComponent_chars _ _ hm).1 rfl
    have hWne : lastEventIdQueryParameterName ++ '=' ::
        encodeURIComponent lastEventId ≠ [] := by simp
    have hsegW := segName_keyed (encodeURIComponent lastEventId)
    have hsplitW := splitAmp_noAmp _ hWamp
    rcases hq : firstIdx (fun c => c = '?') url with _ | i
    · have hC : computeRequestURL url lastEventId =
          url ++ '?' :: (lastEventIdQueryParameterName ++ '=' ::
            encodeURIComponent lastEventId) := by
        unfold computeRequestURL
        rw [if_pos ⟨h1, h2⟩, if_pos h3, hq]
        simp
      rw [hC]
      have hfi : firstIdx (fun c => c = '?')
          (url ++ '?' :: (lastEventIdQueryParameterName ++ '=' ::
            encodeURIComponent lastEventId)) = some url.length := by
        rw [firstIdx_append_none _ hq, firstIdx_cons, if_pos (by decide)]
        simp
      rw [paramsOf_query _ _ hfi,
        show (url ++ '?' :: (lastEventIdQueryParameterName ++ '=' ::
            encodeURIComponent lastEventId)).drop (url.length + 1) =
          lastEventIdQueryParameterName ++ '=' :: encodeURIComponent lastEventId from by
          rw [show url.length + 1 = url.length + 1 from rfl, List.drop_append]
          rfl,
        hsplitW, paramsOf_no_query url hq]
      constructor
      · simp [hWne]
      · simp [hWne, hsegW]
    · have hilt : i < url.length := firstIdx_lt hq
      rw [hq, Option.getD_some] at hq0
      have htk : firstIdx (fun c => c = '?') (url.take (i + 1)) = some i :=
        firstIdx_take_succ hq
      have hlen : (url.take (i + 1)).length = i + 1 := by
        rw [List.length_take]
        omega
      have hC : computeRequestURL url lastEventId =
          (url.take (i + 1) ++ replaceQuery (url.drop (i + 1))) ++ '&' ::
            (lastEventIdQueryParameterName ++ '=' ::
              encodeURIComponent lastEventId) := by
        unfold computeRequestURL
        rw [if_pos ⟨h1, h2⟩, if_pos h3, hq]
        simp [List.append_assoc]
      rw [hC]
      have hfi : firstIdx (fun c => c = '?')
          ((url.take (i + 1) ++ replaceQuery (url.drop (i + 1))) ++ '&' ::
            (lastEventIdQueryParameterName ++ '=' ::
              encodeURIComponent lastEventId)) = some i :=
        firstIdx_append_some _ (firstIdx_append_some _ htk)
      rw [paramsOf_query _ _ hfi]
      have hdrop : ((url.take (i + 1) ++ replaceQuery (url.drop (i + 1))) ++ '&' ::
          (lastEventIdQueryParameterName ++ '=' ::
            encodeURIComponent lastEventId)).drop (i + 1) =
          replaceQuery (url.drop (i + 1)) ++ '&' ::
            (lastEventIdQueryParameterName ++ '=' ::
              encodeURIComponent lastEventId) := by
        rw [List.append_assoc, List.drop_append_of_le_length (by omega),
          show (url.take (i + 1)).drop (i + 1) = [] from
            List.drop_eq_nil_of_le (by omega)]
        rfl
      rw [hdrop, splitAmp_append_amp, hsplitW, paramsOf_query _ _ hq]
      have hrf := splitAmp_replace_filter (url.drop (i + 1)) hq0
      constructor
      · rw [List.filter_append, hrf]
        simp [hWne]
      · rw [List.filter_append, List.filter_append, hrf, filter_contra_name,
          List.nil_append]
        simp [hWne, hsegW]
  · intro h
    unfold computeRequestURL
    by_cases hd : url.take 5 ≠ "data:".toList ∧ url.take 5 ≠ "blob:".toList
    · rw [if_pos hd, if_neg (by simp [h])]
    · rw [if_neg hd]
  · intro h
    unfold computeRequestURL
    rw [if_neg (by rcases h with h | h <;> simp [h])]

/-- Witness for C8 (amended): a base URL already carrying a `lastEventId`
parameter, whose query does not begin with `&`, has it replaced, not
duplicated, the other parameters kept in order. -/
theorem reconnect_url_query_witness :
    paramsOf (computeRequestURL "http://h/p?a=1&lastEventId=5&b=2".toList
        "42".toList) =
      (paramsOf "http://h/p?a=1&lastEventId=5&b=2".toList).filter
          (fun s => segName s ≠ lastEventIdQueryParameterName) ++
        [lastEventIdQueryParameterName ++ '=' ::
          encodeURIComponent "42".toList] ∧
      ((paramsOf (computeRequestURL "http://h/p?a=1&lastEventId=5&b=2".toList
          "42".toList)).filter
        (fun s => segName s = lastEventIdQueryParameterName)).length = 1 :=
  (reconnect_url_query "http://h/p?a=1&lastEventId=5&b=2".toList "42".toList).1
    (by decide)

/-- Counterexample for C8 as stated: when the base URL's query begins with `&`,
the regex's zero-length match at position 0 keeps the `lastEventId` segment
right after that `&`, so the request URL carries the parameter twice — the
pre-existing parameter is not removed. -/
theorem reconnect_url_duplicate_counterexample :
    computeRequestURL "http://h/p?&lastEventId=5".toList "42".toList =
      "http://h/p?&lastEventId=5&lastEventId=42".toList ∧
      ((paramsOf (computeRequestURL "http://h/p?&lastEventId=5".toList
          "42".toList)).filter
        (fun s => segName s = lastEventIdQueryParameterName)).length = 2 := by
  decide

end EventSourceModel
